import Mathlib

/-!
# Group-fair facility location: `mechanisms.cpp` / `mtgc_overview.cpp`

Shallow embedding of the core of the two programs:

* `frac_t`               the fraction type (constructor, `<`, `==`, `value`);
* `h`, `max_h`           the group cost and the maximum group cost;
* `find_optimal`         the fixed-step scan for the optimal location;
* `approx_ratio`         the three-way report of the approximation ratio;
* `PEPM`, `LGRV`         the two placement strategies.

Modelling conventions.  `int` is `Int` (counters are `Nat`), without overflow.
A failed `assert` is `none`.  The arithmetic on locations, costs and
probabilities is modelled twice.

* Exact: `double` is `ℚ` and no operation rounds; the scan variable of
  `find_optimal` takes the values `k / 100000`, `k = 0, …, 100000`
  (`h`, `max_h`, `find_optimal`, `approx_ratio`, `PEPM_prob`).
* Binary64: a `double` is the rational it denotes and every operation is the
  exact one followed by `fl`, rounding to the nearest `double`, ties to even,
  one rounding per operation (no fused multiply-add); the scan variable is the
  accumulated sum `traj k` of the rounded steps (`h_d`, `max_h_d`,
  `find_optimal_d`, `approx_ratio_d`, `PEPM_prob_d`).

The statements on integers (the fraction type, the input phase, the splits, the
choice of `LGRV`) are the same in both.  Where the two differ, the statement
says which one it is about.
-/

namespace Mechanisms

/-! ## `frac_t` -/

/-- The two data members `a`, `b` of `struct frac_t`. -/
structure frac_t where
  a : Int
  b : Int
deriving DecidableEq, Repr

/-- One step of the loop of `std::__gcd`: `t = m % n; m = n; n = t`, with the
truncating remainder of C++. -/
def gcd_loop : Nat → Int → Int → Int
  | 0, m, _ => m
  | fuel + 1, m, n => if n = 0 then m else gcd_loop fuel n (Int.tmod m n)

/-- The libstdc++ helper `std::__gcd(m, n)`: Euclid's loop on signed integers,
`while (n != 0) { t = m % n; m = n; n = t; } return m;`.  The absolute value of
`n` strictly decreases, so `|n| + 1` rounds are enough. -/
def std_gcd (m n : Int) : Int := gcd_loop (n.natAbs + 1) m n

/-- The variables in scope in the body of the constructor
`frac_t(int a, int b) : a(a), b(b) { ... }`: the two data members, set by the
member-initialiser list, and the two parameters of the same names.  Inside the
body the unqualified names `a` and `b` denote the parameters. -/
structure CtorFrame where
  mem_a : Int
  mem_b : Int
  par_a : Int
  par_b : Int
deriving DecidableEq, Repr

/-- The constructor body after the assertion, as a transformation of the frame:
`int g = std::__gcd(a, b); a /= g; b /= g; if (b < 0) { a = -a; b = -b; }`.
Every assignment targets a parameter. -/
def ctor_body (fr : CtorFrame) : CtorFrame :=
  let g := std_gcd fr.par_a fr.par_b
  let fr1 : CtorFrame := { fr with par_a := Int.tdiv fr.par_a g, par_b := Int.tdiv fr.par_b g }
  if fr1.par_b < 0 then { fr1 with par_a := - fr1.par_a, par_b := - fr1.par_b } else fr1

/-- The frame at the end of the constructor call `frac_t(a, b)`. -/
def ctor_frame (a b : Int) : CtorFrame :=
  ctor_body { mem_a := a, mem_b := b, par_a := a, par_b := b }

/-- The object left by `frac_t(a, b)` when its assertion holds: the data members
of the final frame. -/
def frac_t.init (a b : Int) : frac_t :=
  { a := (ctor_frame a b).mem_a, b := (ctor_frame a b).mem_b }

/-- The constructor `frac_t(a, b)`; `assert(b != 0)` failing is `none`. -/
def frac_t.ctor (a b : Int) : Option frac_t :=
  if b = 0 then none else some (frac_t.init a b)

/-- `operator<`: `a * f.b < b * f.a`. -/
def frac_t.lt (p f : frac_t) : Bool := decide (p.a * f.b < p.b * f.a)

/-- `operator==`: `a * f.b == b * f.a`. -/
def frac_t.eq (p f : frac_t) : Bool := decide (p.a * f.b = p.b * f.a)

/-- `value()`: `(double)a / b`. -/
def frac_t.value (p : frac_t) : ℚ := (p.a : ℚ) / (p.b : ℚ)

/-! ## The global state and the input loop -/

/-- The globals `n`, `m` and `G` once the input has been read. -/
structure Instance where
  n : Nat
  m : Nat
  G : List (List frac_t)
deriving DecidableEq, Repr

/-- The statement `G[g].push_back(f)`. -/
def push_back_at : List (List frac_t) → Nat → frac_t → List (List frac_t)
  | [], _, _ => []
  | grp :: rest, 0, f => (grp ++ [f]) :: rest
  | grp :: rest, g + 1, f => grp :: push_back_at rest g f

/-- The reading loop `for (i = 1; i <= n; i++) { cin >> a >> b >> g;
assert(a <= b && 0 <= g && g <= m); G[g].push_back(frac_t(a, b)); }` over the
`n` records of the input; a failed assertion is `none`. -/
def read_records (m : Nat) : List (Int × Int × Int) → List (List frac_t) → Option (List (List frac_t))
  | [], G => some G
  | (a, b, g) :: rest, G =>
    if a ≤ b ∧ 0 ≤ g ∧ g ≤ (m : Int) then
      match frac_t.ctor a b with
      | none => none
      | some f => read_records m rest (push_back_at G g.toNat f)
    else none

/-- The call `std::sort(G[i].begin(), G[i].end())`, which orders with
`operator<`.  The standard fixes the result only up to the order of equivalent
elements; insertion sort is taken as the representative. -/
def std_sort (grp : List frac_t) : List frac_t :=
  List.insertionSort (fun p q => frac_t.lt p q = true) grp

/-- The loop `for (i = 1; i <= m; i++) std::sort(G[i]...)` on a table of `m + 1`
groups: group 0 is left as read, every other group is sorted. -/
def sort_groups : List (List frac_t) → List (List frac_t)
  | [] => []
  | g0 :: rest => g0 :: rest.map std_sort

/-- The input phase shared by `PEPM`, `LGRV` and `mtgc_overview`: `n` is the
number of records, `G.resize(m + 1)`, the reading loop, the sorting loop. -/
def read_input (m : Nat) (recs : List (Int × Int × Int)) : Option Instance :=
  match read_records m recs (List.replicate (m + 1) []) with
  | none => none
  | some G => some { n := recs.length, m := m, G := sort_groups G }

/-! ## Costs -/

/-- The function `h(g, x)`: `ans = 0; for each agent of G[g]: ans += 1 - fabs(value - x)`. -/
def h (I : Instance) (g : Nat) (x : ℚ) : ℚ :=
  (I.G.getD g []).foldl (fun ans f => ans + (1 - |f.value - x|)) 0

/-- The function `max_h(x)`: `ans = 0; for (i = 1; i <= m; i++) ans = max(ans, h(i, x))`. -/
def max_h (I : Instance) (x : ℚ) : ℚ :=
  (List.range' 1 I.m).foldl (fun ans i => max ans (h I i x)) 0

/-! ## The search for the optimal location -/

/-- The `k`-th value of the scan variable `i` of `find_optimal`. -/
def grid_pt (k : Nat) : ℚ := (k : ℚ) / 100000

/-- The values taken by `for (double i = 0; i <= 1; i += 0.00001)`. -/
def grid : List ℚ := (List.range 100001).map grid_pt

/-- The body of the loop of `find_optimal` on the pair `(ans, ansloc)`:
`if (max_h(i) < ans) { ans = max_h(i); ansloc = i; }`. -/
def scan_step (I : Instance) (st : ℚ × ℚ) (i : ℚ) : ℚ × ℚ :=
  if max_h I i < st.1 then (max_h I i, i) else st

/-- The loop of `find_optimal` over a list of locations. -/
def scan (I : Instance) (xs : List ℚ) (st : ℚ × ℚ) : ℚ × ℚ :=
  xs.foldl (scan_step I) st

/-- The function `find_optimal()`: `ans = n, ansloc = 0`, the scan, `return ansloc`. -/
def find_optimal (I : Instance) : ℚ :=
  (scan I grid ((I.n : ℚ), 0)).2

/-! ## The approximation ratio -/

/-- The three sentences `approx_ratio` can print. -/
inductive Report where
  | inf : Report
  | one : Report
  | ratio : ℚ → Report
deriving DecidableEq

/-- The literal `1e-10`. -/
def eps : ℚ := 1 / 10000000000

/-- The local `exp_cost` of `approx_ratio`: `p * max_h(0) + (1 - p) * max_h(1)`. -/
def exp_cost (I : Instance) (p : ℚ) : ℚ :=
  p * max_h I 0 + (1 - p) * max_h I 1

/-- The local `opt` of `approx_ratio`: `max_h(find_optimal())`. -/
def opt (I : Instance) : ℚ := max_h I (find_optimal I)

/-- The function `approx_ratio(p)`. -/
def approx_ratio (I : Instance) (p : ℚ) : Report :=
  if opt I ≤ eps ∧ exp_cost I p ≥ eps then Report.inf
  else if opt I ≤ eps ∧ exp_cost I p ≤ eps then Report.one
  else Report.ratio (exp_cost I p / opt I)

/-! ## The strategies -/

/-- The inner counting loop of `PEPM` and `LGRV` on one group:
`if (G[i][j] < frac_t(1, 2)) ++n_1; else ++n_2;`. -/
def split (grp : List frac_t) : Nat × Nat :=
  grp.foldl (fun c f => if frac_t.lt f (frac_t.init 1 2) then (c.1 + 1, c.2) else (c.1, c.2 + 1)) (0, 0)

/-- The entries `V[1], …, V[m]` built by `PEPM` and by `LGRV` (the same code in
both); `V[0] = (0, 0)` is never read. -/
def splits (I : Instance) : List (Nat × Nat) :=
  (List.range' 1 I.m).map (fun i => split (I.G.getD i []))

/-- The aggregation loop of `PEPM` on `(a, b, c, d)`. -/
def PEPM_bounds (V : List (Nat × Nat)) : Nat × Nat × Nat × Nat :=
  V.foldl (fun s v => (max s.1 (v.1 + v.2 * 2), max s.2.1 v.1,
                       max s.2.2.1 (v.1 * 2 + v.2), max s.2.2.2 v.2)) (0, 0, 0, 0)

/-- The probability `p` of `PEPM` from the splits. -/
def PEPM_prob (V : List (Nat × Nat)) : ℚ :=
  let s := PEPM_bounds V
  let a := s.1
  let b := s.2.1
  let c := s.2.2.1
  let d := s.2.2.2
  if b = 0 then 1
  else if d = 0 then 0
  else ((a : ℚ) / (b : ℚ) - 1) / ((a : ℚ) / (b : ℚ) + (c : ℚ) / (d : ℚ) - 2)

/-- The loop of `LGRV` on `(cur_max, p)`: `if (V[i].first > cur_max) cur_max =
V[i].first, p = 0; if (V[i].second > cur_max) cur_max = V[i].second, p = 1;`. -/
def LGRV_step (st : Nat × ℚ) (v : Nat × Nat) : Nat × ℚ :=
  let st1 : Nat × ℚ := if v.1 > st.1 then (v.1, 0) else st
  if v.2 > st1.1 then (v.2, 1) else st1

/-- The probability `p` of `LGRV` from the splits: `cur_max = 0, p = 0`, the loop. -/
def LGRV_prob (V : List (Nat × Nat)) : ℚ :=
  (V.foldl LGRV_step (0, 0)).2

/-- The run `PEPM()` after the input phase: the probability and the report. -/
def PEPM (I : Instance) : ℚ × Report :=
  (PEPM_prob (splits I), approx_ratio I (PEPM_prob (splits I)))

/-- The run `LGRV()` after the input phase: the probability and the report. -/
def LGRV (I : Instance) : ℚ × Report :=
  (LGRV_prob (splits I), approx_ratio I (LGRV_prob (splits I)))

/-! ## Definitions that follow the words of the specification -/

/-- The maximum over the groups of a quantity of the split, taken together with
0 (so it is 0 when there is no group). -/
def max_over (q : Nat × Nat → Nat) (V : List (Nat × Nat)) : Nat :=
  (V.map q).foldr max 0

/-- The maximum group cost in the words of the specification: the maximum over
`g` in `1..m` of the cost of group `g` at `x`, and 0 when there is no group. -/
def max_group_cost (I : Instance) (x : ℚ) : ℚ :=
  match (List.range' 1 I.m).map (fun g => h I g x) with
  | [] => 0
  | c :: cs => cs.foldl max c

/-! ## The comparisons on 32-bit `int` -/

/-- The value of a mathematical integer once stored in a 32-bit two's-complement
`int`: reduction modulo `2^32` into `[-2^31, 2^31)`. -/
def wrap32 (x : Int) : Int := (x + 2147483648) % 4294967296 - 2147483648

/-- `operator<` with the two products wrapped to 32 bits. -/
def frac_t.lt32 (p f : frac_t) : Bool := decide (wrap32 (p.a * f.b) < wrap32 (p.b * f.a))

/-- `operator==` with the two products wrapped to 32 bits. -/
def frac_t.eq32 (p f : frac_t) : Bool := decide (wrap32 (p.a * f.b) = wrap32 (p.b * f.a))

/-- Exactly one of three propositions holds. -/
def ExactlyOne (A B C : Prop) : Prop :=
  (A ∧ ¬ B ∧ ¬ C) ∨ (¬ A ∧ B ∧ ¬ C) ∨ (¬ A ∧ ¬ B ∧ C)

/-! ## Well-formed instances -/

/-- Every group holds at most `n` agents. -/
def Bounded (I : Instance) : Prop := ∀ g, (I.G.getD g []).length ≤ I.n

/-! ## Concrete instances -/

/-- The globals after the input `n = 1, m = 1`, record `(0, 1, 1)`. -/
def inst_zero : Instance := ⟨1, 1, [[], [⟨0, 1⟩]]⟩

/-- The globals after the input `n = 1, m = 1`, record `(1, 2, 1)`. -/
def inst_half : Instance := ⟨1, 1, [[], [⟨1, 2⟩]]⟩

/-- The globals after the input `n = 2, m = 1`, records `(0, 1, 1)`, `(1, 1, 1)`. -/
def inst_ends : Instance := ⟨2, 1, [[], [⟨0, 1⟩, ⟨1, 1⟩]]⟩

/-! ## Binary64 arithmetic

The program computes in `double`.  A finite `double` is a rational, and every
operation returns the exact result rounded to the nearest `double`, ties to the
even significand.  `fl` is that rounding for values in the normal range (53-bit
significand, no overflow or underflow), which holds all values of the program. -/

/-- The power `2^k` for an integer exponent. -/
def pow2 (k : Int) : ℚ :=
  if 0 ≤ k then ((2 ^ k.toNat : Nat) : ℚ) else 1 / ((2 ^ (-k).toNat : Nat) : ℚ)

/-- The number of binary digits of `n`, by halving (`fuel` bounds the rounds). -/
def bitlen : Nat → Nat → Nat
  | 0, _ => 0
  | f + 1, n => if n = 0 then 0 else bitlen f (n / 2) + 1

/-- The binary exponent of a positive rational `x`: the `e` with `2^e <= x < 2^(e+1)`. -/
def ilog2 (x : ℚ) : Int :=
  let k : Int := (bitlen x.num.natAbs x.num.natAbs : Int) - (bitlen x.den x.den : Int)
  if pow2 k ≤ x then k else k - 1

/-- Rounding to the nearest integer, halves to the even one. -/
def rhe (t : ℚ) : Int :=
  if t - (⌊t⌋ : ℚ) < 1 / 2 then ⌊t⌋
  else if 1 / 2 < t - (⌊t⌋ : ℚ) then ⌊t⌋ + 1
  else if ⌊t⌋ % 2 = 0 then ⌊t⌋ else ⌊t⌋ + 1

/-- Rounding of a positive rational to 53 significant bits. -/
def flpos (x : ℚ) : ℚ := (rhe (x / pow2 (ilog2 x - 52)) : ℚ) * pow2 (ilog2 x - 52)

/-- Rounding of a rational to the nearest `double`. -/
def fl (x : ℚ) : ℚ :=
  if x = 0 then 0 else if 0 < x then flpos x else - flpos (-x)

/-! ## The program in `double` -/

/-- The probability `p` of `PEPM` in `double`:
`((double)a / b - 1) / ((double)a / b + (double)c / d - 2)`, each operation rounded. -/
def PEPM_prob_d (V : List (Nat × Nat)) : ℚ :=
  let s := PEPM_bounds V
  let a := s.1
  let b := s.2.1
  let c := s.2.2.1
  let d := s.2.2.2
  if b = 0 then 1
  else if d = 0 then 0
  else fl (fl (fl ((a : ℚ) / (b : ℚ)) - 1) /
           fl (fl (fl ((a : ℚ) / (b : ℚ)) + fl ((c : ℚ) / (d : ℚ))) - 2))

/-- The globals after the input `recs_eleven_three` below. -/
def inst_eleven_three : Instance :=
  ⟨14, 2, [[], List.replicate 11 ⟨1, 1⟩, List.replicate 3 ⟨0, 1⟩]⟩

/-- An input with `n = 14, m = 2`: eleven agents at 1 in group 1 and three agents
at 0 in group 2. -/
def recs_eleven_three : List (Int × Int × Int) :=
  List.replicate 11 (1, 1, 1) ++ List.replicate 3 (0, 1, 2)

/-! ## Lemmas on `frac_t` -/

theorem init_eq (a b : Int) : frac_t.init a b = ⟨a, b⟩ := by
  unfold frac_t.init ctor_frame ctor_body
  dsimp only
  split <;> rfl

theorem ctor_eq (a b : Int) (hb : b ≠ 0) : frac_t.ctor a b = some ⟨a, b⟩ := by
  simp [frac_t.ctor, hb, init_eq]

theorem natAbs_tmod (m n : Int) : (Int.tmod m n).natAbs = m.natAbs % n.natAbs := by
  cases m <;> cases n <;> simp [Int.tmod, Int.natAbs_neg] <;> rfl

theorem gcd_loop_natAbs (fuel : Nat) (m n : Int) (hf : n.natAbs < fuel) :
    (gcd_loop fuel m n).natAbs = Nat.gcd m.natAbs n.natAbs := by
  induction fuel generalizing m n with
  | zero => omega
  | succ fuel ih =>
    unfold gcd_loop
    by_cases hn : n = 0
    · simp [hn]
    · rw [if_neg hn]
      have hpos : 0 < n.natAbs := Int.natAbs_pos.2 hn
      have hlt : (Int.tmod m n).natAbs < fuel := by
        rw [natAbs_tmod]
        have := Nat.mod_lt m.natAbs hpos
        omega
      rw [ih n (Int.tmod m n) hlt, natAbs_tmod, Nat.gcd_comm, ← Nat.gcd_rec, Nat.gcd_comm]

/-- The loop of `std::__gcd` ends within its fuel, on plus or minus the gcd. -/
theorem std_gcd_natAbs (m n : Int) : (std_gcd m n).natAbs = Int.gcd m n :=
  gcd_loop_natAbs _ m n (Nat.lt_succ_self _)

/-- What the constructor body achieves on its parameters: a positive denominator,
lowest terms, the same rational value. -/
theorem ctor_frame_params (a b : Int) (hb : b ≠ 0) :
    0 < (ctor_frame a b).par_b ∧
    Int.gcd (ctor_frame a b).par_a (ctor_frame a b).par_b = 1 ∧
    (ctor_frame a b).par_a * b = a * (ctor_frame a b).par_b := by
  have hg := std_gcd_natAbs a b
  have hG : 0 < Nat.gcd a.natAbs b.natAbs := Nat.gcd_pos_of_pos_right _ (Int.natAbs_pos.2 hb)
  have hda : (std_gcd a b) ∣ a := by
    rw [← Int.natAbs_dvd_natAbs, hg]; exact Nat.gcd_dvd_left _ _
  have hdb : (std_gcd a b) ∣ b := by
    rw [← Int.natAbs_dvd_natAbs, hg]; exact Nat.gcd_dvd_right _ _
  have hg0 : std_gcd a b ≠ 0 := by
    intro h0
    rw [h0] at hg
    rw [Int.gcd_def] at hg
    simp at hg
    omega
  have hcop : Int.gcd (Int.tdiv a (std_gcd a b)) (Int.tdiv b (std_gcd a b)) = 1 := by
    rw [Int.gcd_def, Int.natAbs_tdiv, Int.natAbs_tdiv, hg]
    exact Nat.coprime_div_gcd_div_gcd hG
  have hea : Int.tdiv a (std_gcd a b) * std_gcd a b = a := Int.tdiv_mul_cancel hda
  have heb : Int.tdiv b (std_gcd a b) * std_gcd a b = b := Int.tdiv_mul_cancel hdb
  have hne : Int.tdiv b (std_gcd a b) ≠ 0 := by
    intro h0
    rw [h0] at heb
    simp at heb
    exact hb heb.symm
  have hcross : Int.tdiv a (std_gcd a b) * b = a * Int.tdiv b (std_gcd a b) := by
    calc Int.tdiv a (std_gcd a b) * b
        = Int.tdiv a (std_gcd a b) * (Int.tdiv b (std_gcd a b) * std_gcd a b) := by rw [heb]
      _ = (Int.tdiv a (std_gcd a b) * std_gcd a b) * Int.tdiv b (std_gcd a b) := by ring
      _ = a * Int.tdiv b (std_gcd a b) := by rw [hea]
  unfold ctor_frame ctor_body
  dsimp only
  split
  · rename_i hneg
    refine ⟨by dsimp only; omega, ?_, ?_⟩
    · dsimp only
      rw [Int.gcd_def, Int.natAbs_neg, Int.natAbs_neg, ← Int.gcd_def]
      exact hcop
    · dsimp only
      rw [neg_mul, mul_neg, hcross]
  · rename_i hneg
    refine ⟨by dsimp only; omega, hcop, hcross⟩

/-! ## Lemmas on `PEPM` -/

theorem PEPM_bounds_foldl (V : List (Nat × Nat)) (s : Nat × Nat × Nat × Nat) :
    V.foldl (fun s v => (max s.1 (v.1 + v.2 * 2), max s.2.1 v.1,
                         max s.2.2.1 (v.1 * 2 + v.2), max s.2.2.2 v.2)) s
      = (max s.1 (max_over (fun v => v.1 + v.2 * 2) V), max s.2.1 (max_over (fun v => v.1) V),
         max s.2.2.1 (max_over (fun v => v.1 * 2 + v.2) V), max s.2.2.2 (max_over (fun v => v.2) V)) := by
  induction V generalizing s with
  | nil => simp [max_over]
  | cons v V ih =>
    rw [List.foldl_cons, ih]
    simp only [max_over, List.map_cons, List.foldr_cons, max_assoc]

theorem PEPM_bounds_eq (V : List (Nat × Nat)) :
    PEPM_bounds V = (max_over (fun v => v.1 + v.2 * 2) V, max_over (fun v => v.1) V,
                     max_over (fun v => v.1 * 2 + v.2) V, max_over (fun v => v.2) V) := by
  unfold PEPM_bounds
  rw [PEPM_bounds_foldl]
  simp

theorem max_over_eq_zero (q : Nat × Nat → Nat) (V : List (Nat × Nat)) :
    max_over q V = 0 ↔ ∀ v ∈ V, q v = 0 := by
  induction V with
  | nil => simp [max_over]
  | cons v V ih =>
    have hstep : max_over q (v :: V) = max (q v) (max_over q V) := rfl
    rw [hstep, List.forall_mem_cons, ← ih]
    omega

/-! ## Lemmas on the costs -/

theorem foldl_cost_le (x : ℚ) (l : List frac_t) (s : ℚ) :
    l.foldl (fun ans f => ans + (1 - |f.value - x|)) s ≤ s + l.length := by
  induction l generalizing s with
  | nil => simp
  | cons f l ih =>
    rw [List.foldl_cons]
    have h1 := ih (s + (1 - |f.value - x|))
    have h2 : 0 ≤ |f.value - x| := abs_nonneg _
    simp only [List.length_cons, Nat.cast_add, Nat.cast_one]
    linarith

theorem h_le_length (I : Instance) (g : Nat) (x : ℚ) :
    h I g x ≤ ((I.G.getD g []).length : ℚ) := by
  have := foldl_cost_le x (I.G.getD g []) 0
  simpa [h] using this

theorem foldl_max_ge (F : Nat → ℚ) (l : List Nat) (s : ℚ) :
    s ≤ l.foldl (fun ans i => max ans (F i)) s := by
  induction l generalizing s with
  | nil => simp
  | cons i l ih =>
    rw [List.foldl_cons]
    exact le_trans (le_max_left _ _) (ih _)

theorem foldl_max_le (F : Nat → ℚ) (B : ℚ) (l : List Nat) (s : ℚ) (hs : s ≤ B)
    (hF : ∀ i ∈ l, F i ≤ B) : l.foldl (fun ans i => max ans (F i)) s ≤ B := by
  induction l generalizing s with
  | nil => simpa using hs
  | cons i l ih =>
    rw [List.foldl_cons]
    exact ih _ (max_le hs (hF i (List.mem_cons_self _ _)))
      (fun j hj => hF j (List.mem_cons_of_mem _ hj))

theorem max_h_nonneg (I : Instance) (x : ℚ) : 0 ≤ max_h I x :=
  foldl_max_ge _ _ _

theorem max_h_le_n (I : Instance) (hI : Bounded I) (x : ℚ) : max_h I x ≤ (I.n : ℚ) := by
  apply foldl_max_le
  · exact Nat.cast_nonneg _
  · intro i _
    exact le_trans (h_le_length I i x) (by exact_mod_cast hI i)

/-! ## Lemmas on the scan -/

theorem scan_cons (I : Instance) (x : ℚ) (xs : List ℚ) (st : ℚ × ℚ) :
    scan I (x :: xs) st = scan I xs (scan_step I st x) := rfl

/-- What the scan leaves in `(ans, ansloc)`: either nothing was below the seed
and the pair is untouched, or the pair is the first minimiser of the list and
its value. -/
theorem scan_spec (I : Instance) (xs : List ℚ) (a l : ℚ) :
    (scan I xs (a, l) = (a, l) ∧ ∀ x ∈ xs, a ≤ max_h I x) ∨
    (∃ (k : Nat) (y : ℚ), xs[k]? = some y ∧ scan I xs (a, l) = (max_h I y, y) ∧ max_h I y < a ∧
      (∀ x ∈ xs, max_h I y ≤ max_h I x) ∧
      ∀ (j : Nat) (z : ℚ), j < k → xs[j]? = some z → max_h I y < max_h I z) := by
  induction xs generalizing a l with
  | nil => left; simp [scan]
  | cons x xs ih =>
    rw [scan_cons]
    by_cases hx : max_h I x < a
    · have hstep : scan_step I (a, l) x = (max_h I x, x) := by simp [scan_step, hx]
      rw [hstep]
      rcases ih (max_h I x) x with ⟨heq, hall⟩ | ⟨k, y, hk, heq, hlt, hall, hfirst⟩
      · right
        refine ⟨0, x, by simp, heq, hx, ?_, ?_⟩
        · intro z hz
          rcases List.mem_cons.1 hz with rfl | hz
          · exact le_refl _
          · exact hall z hz
        · intro j z hj _
          omega
      · right
        refine ⟨k + 1, y, by simpa using hk, heq, lt_trans hlt hx, ?_, ?_⟩
        · intro z hz
          rcases List.mem_cons.1 hz with rfl | hz
          · exact le_of_lt hlt
          · exact hall z hz
        · intro j z hj hz
          cases j with
          | zero =>
            simp at hz
            rw [← hz]
            exact hlt
          | succ j =>
            simp at hz
            exact hfirst j z (by omega) hz
    · have hstep : scan_step I (a, l) x = (a, l) := by simp [scan_step, hx]
      rw [hstep]
      push_neg at hx
      rcases ih a l with ⟨heq, hall⟩ | ⟨k, y, hk, heq, hlt, hall, hfirst⟩
      · left
        refine ⟨heq, ?_⟩
        intro z hz
        rcases List.mem_cons.1 hz with rfl | hz
        · exact hx
        · exact hall z hz
      · right
        refine ⟨k + 1, y, by simpa using hk, heq, hlt, ?_, ?_⟩
        · intro z hz
          rcases List.mem_cons.1 hz with rfl | hz
          · exact le_trans (le_of_lt hlt) hx
          · exact hall z hz
        · intro j z hj hz
          cases j with
          | zero =>
            simp at hz
            rw [← hz]
            exact lt_of_lt_of_le hlt hx
          | succ j =>
            simp at hz
            exact hfirst j z (by omega) hz

theorem grid_getElem? (k : Nat) (y : ℚ) :
    grid[k]? = some y ↔ k ≤ 100000 ∧ y = grid_pt k := by
  unfold grid
  rw [List.getElem?_map]
  by_cases hk : k < 100001
  · rw [List.getElem?_range hk]
    simp only [Option.map_some', Option.some.injEq]
    constructor
    · intro h; exact ⟨by omega, h.symm⟩
    · intro h; exact h.2.symm
  · rw [List.getElem?_eq_none (by simpa using hk)]
    simp
    intro h; omega

theorem mem_grid (x : ℚ) : x ∈ grid ↔ ∃ k, k ≤ 100000 ∧ x = grid_pt k := by
  unfold grid
  simp only [List.mem_map, List.mem_range]
  constructor
  · rintro ⟨k, hk, rfl⟩; exact ⟨k, by omega, rfl⟩
  · rintro ⟨k, hk, rfl⟩; exact ⟨k, by omega, rfl⟩

theorem grid_pt_zero : grid_pt 0 = 0 := by simp [grid_pt]

/-- The result of `find_optimal` is the first grid point that minimises `max_h`
over the grid, as soon as no value of `max_h` exceeds the seed `n`. -/
theorem find_optimal_first_min (I : Instance) (hI : ∀ x, max_h I x ≤ (I.n : ℚ)) :
    ∃ k, k ≤ 100000 ∧ find_optimal I = grid_pt k ∧
      (∀ j, j ≤ 100000 → max_h I (grid_pt k) ≤ max_h I (grid_pt j)) ∧
      (∀ j, j < k → max_h I (grid_pt k) < max_h I (grid_pt j)) := by
  unfold find_optimal
  rcases scan_spec I grid (I.n : ℚ) 0 with ⟨heq, hall⟩ | ⟨k, y, hk, heq, hlt, hall, hfirst⟩
  · refine ⟨0, by omega, by rw [heq, grid_pt_zero], ?_, ?_⟩
    · intro j hj
      exact le_trans (hI _) (hall _ ((mem_grid _).2 ⟨j, hj, rfl⟩))
    · intro j hj; omega
  · obtain ⟨hk1, rfl⟩ := (grid_getElem? k y).1 hk
    refine ⟨k, hk1, by rw [heq], ?_, ?_⟩
    · intro j hj
      exact hall _ ((mem_grid _).2 ⟨j, hj, rfl⟩)
    · intro j hj
      exact hfirst j (grid_pt j) hj ((grid_getElem? j _).2 ⟨by omega, rfl⟩)

/-! ## Lemmas on the input phase -/

theorem length_push_back_at (G : List (List frac_t)) (g : Nat) (f : frac_t) :
    (push_back_at G g f).length = G.length := by
  induction G generalizing g with
  | nil => rfl
  | cons grp rest ih =>
    cases g with
    | zero => rfl
    | succ g => simp [push_back_at, ih]

theorem push_back_at_getD (G : List (List frac_t)) (g k : Nat) (f : frac_t) (hg : g < G.length) :
    (push_back_at G g f).getD k [] = if g = k then G.getD k [] ++ [f] else G.getD k [] := by
  induction G generalizing g k with
  | nil => simp at hg
  | cons grp rest ih =>
    cases g with
    | zero =>
      cases k with
      | zero => simp [push_back_at]
      | succ k => simp [push_back_at]
    | succ g =>
      cases k with
      | zero => simp [push_back_at]
      | succ k =>
        have hg1 : g < rest.length := by simpa using hg
        simpa [push_back_at] using ih g k hg1

/-- The agents of the records whose group index is `k`, in input order. -/
theorem read_records_spec (m : Nat) (recs : List (Int × Int × Int)) (G G1 : List (List frac_t))
    (hlen : G.length = m + 1) (hr : read_records m recs G = some G1) :
    G1.length = m + 1 ∧ ∀ k : Nat, G1.getD k [] =
      G.getD k [] ++ (recs.filter (fun r => decide (r.2.2 = (k : Int)))).map
        (fun r => (⟨r.1, r.2.1⟩ : frac_t)) := by
  induction recs generalizing G with
  | nil =>
    simp only [read_records, Option.some.injEq] at hr
    subst hr
    simp [hlen]
  | cons r recs ih =>
    obtain ⟨a, b, g⟩ := r
    simp only [read_records] at hr
    split at hr
    · rename_i hcond
      obtain ⟨_, hg0, hgm⟩ := hcond
      by_cases hb : b = 0
      · simp [frac_t.ctor, hb] at hr
      · rw [ctor_eq a b hb] at hr
        simp only at hr
        have hlt : g.toNat < G.length := by omega
        obtain ⟨h1, h2⟩ := ih (push_back_at G g.toNat ⟨a, b⟩)
          (by rw [length_push_back_at, hlen]) hr
        refine ⟨h1, fun k => ?_⟩
        rw [h2 k, push_back_at_getD G g.toNat k ⟨a, b⟩ hlt]
        by_cases hk : g = (k : Int)
        · have hk2 : g.toNat = k := by omega
          simp [hk, hk2, List.filter_cons]
        · have hk2 : g.toNat ≠ k := by omega
          simp [hk, hk2, List.filter_cons]
    · simp at hr

theorem std_sort_perm (grp : List frac_t) : (std_sort grp).Perm grp :=
  List.perm_insertionSort _ grp

theorem sort_groups_getD_succ (G : List (List frac_t)) (k : Nat) :
    (sort_groups G).getD (k + 1) [] = std_sort (G.getD (k + 1) []) := by
  cases G with
  | nil => simp [sort_groups, std_sort]
  | cons g0 rest =>
    simp only [sort_groups, List.getD_cons_succ]
    induction rest generalizing k with
    | nil => simp [std_sort]
    | cons g1 rest ih =>
      cases k with
      | zero => simp
      | succ k => simpa using ih k

theorem sort_groups_getD_zero (G : List (List frac_t)) :
    (sort_groups G).getD 0 [] = G.getD 0 [] := by
  cases G <;> simp [sort_groups]

/-- The agents of group `k` as the input phase builds them, before sorting. -/
theorem read_input_spec (m : Nat) (recs : List (Int × Int × Int)) (I : Instance)
    (hI : read_input m recs = some I) :
    I.n = recs.length ∧ I.m = m ∧ ∀ k : Nat, 1 ≤ k → I.G.getD k [] =
      std_sort ((recs.filter (fun r => decide (r.2.2 = (k : Int)))).map
        (fun r => (⟨r.1, r.2.1⟩ : frac_t))) := by
  unfold read_input at hI
  split at hI
  · simp at hI
  · rename_i G hG
    simp only [Option.some.injEq] at hI
    subst hI
    obtain ⟨_, h2⟩ := read_records_spec m recs _ G (by simp) hG
    refine ⟨rfl, rfl, fun k hk => ?_⟩
    obtain ⟨j, rfl⟩ : ∃ j, k = j + 1 := ⟨k - 1, by omega⟩
    simp only
    rw [sort_groups_getD_succ, h2 (j + 1)]
    simp

theorem read_input_bounded (m : Nat) (recs : List (Int × Int × Int)) (I : Instance)
    (hI : read_input m recs = some I) : Bounded I := by
  unfold read_input at hI
  split at hI
  · simp at hI
  · rename_i G hG
    simp only [Option.some.injEq] at hI
    subst hI
    obtain ⟨_, h2⟩ := read_records_spec m recs _ G (by simp) hG
    intro k
    have hfil : ((recs.filter (fun r => decide (r.2.2 = (k : Int)))).map
        (fun r => (⟨r.1, r.2.1⟩ : frac_t))).length ≤ recs.length := by
      rw [List.length_map]
      exact List.length_filter_le _ _
    cases k with
    | zero =>
      simp only [sort_groups_getD_zero]
      rw [h2 0]
      simpa using hfil
    | succ j =>
      simp only [sort_groups_getD_succ]
      rw [(std_sort_perm _).length_eq, h2 (j + 1)]
      simpa using hfil

/-! ## Lemmas on the concrete instances -/

theorem read_inst_zero : read_input 1 [(0, 1, 1)] = some inst_zero := by decide

theorem read_inst_half : read_input 1 [(1, 2, 1)] = some inst_half := by decide

theorem read_inst_ends : read_input 1 [(0, 1, 1), (1, 1, 1)] = some inst_ends := by decide

theorem max_h_inst_zero (x : ℚ) : max_h inst_zero x = max 0 (1 - |x|) := by
  simp [max_h, h, inst_zero, frac_t.value]

theorem max_h_inst_half (x : ℚ) : max_h inst_half x = max 0 (1 - |1 / 2 - x|) := by
  simp [max_h, h, inst_half, frac_t.value]

theorem max_h_inst_ends (x : ℚ) : max_h inst_ends x = max 0 (1 - |x| + (1 - |1 - x|)) := by
  simp [max_h, h, inst_ends, frac_t.value]

theorem grid_pt_bounds (k : Nat) (hk : k ≤ 100000) : 0 ≤ grid_pt k ∧ grid_pt k ≤ 1 := by
  unfold grid_pt
  have h1 : (k : ℚ) ≤ 100000 := by exact_mod_cast hk
  have h0 : (0 : ℚ) ≤ k := Nat.cast_nonneg k
  constructor
  · positivity
  · rw [div_le_one (by norm_num)]
    exact h1

theorem grid_pt_last : grid_pt 100000 = 1 := by norm_num [grid_pt]

theorem opt_inst_zero : opt inst_zero = 0 := by
  obtain ⟨k, _, hres, hmin, _⟩ :=
    find_optimal_first_min inst_zero (max_h_le_n _ (read_input_bounded _ _ _ read_inst_zero))
  have h1 := hmin 100000 (le_refl _)
  rw [grid_pt_last, max_h_inst_zero 1] at h1
  unfold opt
  rw [hres]
  apply le_antisymm _ (max_h_nonneg _ _)
  simpa using h1

theorem find_optimal_inst_half : find_optimal inst_half = 0 := by
  obtain ⟨k, hk, hres, _, hfirst⟩ :=
    find_optimal_first_min inst_half (max_h_le_n _ (read_input_bounded _ _ _ read_inst_half))
  cases k with
  | zero => rw [hres, grid_pt_zero]
  | succ k =>
    exfalso
    have h1 := hfirst 0 (by omega)
    obtain ⟨hx0, hx1⟩ := grid_pt_bounds (k + 1) hk
    rw [grid_pt_zero, max_h_inst_half, max_h_inst_half] at h1
    have habs : |1 / 2 - grid_pt (k + 1)| ≤ 1 / 2 := by
      rw [abs_le]; constructor <;> linarith
    have h2 : (1 : ℚ) / 2 ≤ max 0 (1 - |1 / 2 - grid_pt (k + 1)|) :=
      le_trans (by linarith) (le_max_right _ _)
    have h3 : max (0 : ℚ) (1 - |1 / 2 - 0|) = 1 / 2 := by norm_num [abs_of_pos]
    rw [h3] at h1
    linarith

theorem max_h_inst_ends_unit (x : ℚ) (h0 : 0 ≤ x) (h1 : x ≤ 1) : max_h inst_ends x = 1 := by
  rw [max_h_inst_ends, abs_of_nonneg h0, abs_of_nonneg (by linarith : (0 : ℚ) ≤ 1 - x)]
  have : 1 - x + (1 - (1 - x)) = 1 := by ring
  rw [this]
  norm_num

theorem opt_inst_ends : opt inst_ends = 1 := by
  obtain ⟨k, hk, hres, _, _⟩ :=
    find_optimal_first_min inst_ends (max_h_le_n _ (read_input_bounded _ _ _ read_inst_ends))
  obtain ⟨hx0, hx1⟩ := grid_pt_bounds k hk
  unfold opt
  rw [hres, max_h_inst_ends_unit _ hx0 hx1]

theorem exp_cost_inst_zero_zero : exp_cost inst_zero 0 = 0 := by
  simp only [exp_cost, max_h_inst_zero]
  norm_num

theorem find_optimal_inst_ends : find_optimal inst_ends = 0 := by
  obtain ⟨k, hk, hres, _, hfirst⟩ :=
    find_optimal_first_min inst_ends (max_h_le_n _ (read_input_bounded _ _ _ read_inst_ends))
  cases k with
  | zero => rw [hres, grid_pt_zero]
  | succ k =>
    exfalso
    have h1 := hfirst 0 (by omega)
    obtain ⟨hx0, hx1⟩ := grid_pt_bounds (k + 1) hk
    rw [grid_pt_zero, max_h_inst_ends_unit _ hx0 hx1,
      max_h_inst_ends_unit 0 (le_refl _) (by norm_num)] at h1
    exact lt_irrefl _ h1

theorem exactlyOne_of_order (X Y : Int) : ExactlyOne (X < Y) (Y < X) (X = Y) := by
  unfold ExactlyOne
  omega

/-! ## `max_h` against the maximum over the groups -/

theorem foldl_max_map (F : Nat → ℚ) (l : List Nat) (s : ℚ) :
    l.foldl (fun ans i => max ans (F i)) s = (l.map F).foldl max s := by
  induction l generalizing s with
  | nil => rfl
  | cons i l ih => simp [ih]

theorem foldl_max_seed (l : List ℚ) (a b : ℚ) :
    l.foldl max (max a b) = max a (l.foldl max b) := by
  induction l generalizing b with
  | nil => rfl
  | cons c l ih => simp only [List.foldl_cons, max_assoc, ih]

theorem max_h_eq_max_zero (I : Instance) (x : ℚ) :
    max_h I x = max 0 (max_group_cost I x) := by
  unfold max_h max_group_cost
  rw [foldl_max_map]
  cases (List.range' 1 I.m).map (fun g => h I g x) with
  | nil => simp
  | cons c cs => simp only [List.foldl_cons, foldl_max_seed]

/-! ## Lemmas on `LGRV` -/

theorem max_over_cons (q : Nat × Nat → Nat) (v : Nat × Nat) (V : List (Nat × Nat)) :
    max_over q (v :: V) = max (q v) (max_over q V) := rfl

theorem LGRV_foldl (V : List (Nat × Nat)) (M : Nat)
    (hM : M = max (max_over (fun v => v.1) V) (max_over (fun v => v.2) V)) (c : Nat) (p : ℚ) :
    V.foldl LGRV_step (c, p) =
      if M ≤ c then (c, p)
      else (M, if V.findIdx (fun v => decide (v.1 = M)) ≤ V.findIdx (fun v => decide (v.2 = M))
               then 0 else 1) := by
  induction V generalizing c p M with
  | nil =>
    simp only [max_over, List.map_nil, List.foldr_nil, max_self] at hM
    simp [hM]
  | cons v V ih =>
    obtain ⟨x, y⟩ := v
    rw [List.foldl_cons]
    simp only [max_over_cons] at hM
    have ih1 := ih _ rfl
    simp only [List.findIdx_cons]
    by_cases hx : x > c
    · by_cases hy : y > x
      · have hs : LGRV_step (c, p) (x, y) = (y, 1) := by simp [LGRV_step, hx, hy]
        rw [hs, ih1]
        by_cases hle : max (max_over (fun v => v.1) V) (max_over (fun v => v.2) V) ≤ y
        · have e : M = y := by omega
          have hxy : x ≠ y := by omega
          rw [if_pos hle, e, if_neg (show ¬ _ ≤ c by omega)]
          simp [hxy]
        · have e : max (max_over (fun v => v.1) V) (max_over (fun v => v.2) V) = M := by omega
          rw [if_neg hle, e, if_neg (show ¬ M ≤ c by omega)]
          have h1 : x ≠ M := by omega
          have h2 : y ≠ M := by omega
          simp [h1, h2]
      · have hs : LGRV_step (c, p) (x, y) = (x, 0) := by simp [LGRV_step, hx, hy]
        rw [hs, ih1]
        by_cases hle : max (max_over (fun v => v.1) V) (max_over (fun v => v.2) V) ≤ x
        · have e : M = x := by omega
          rw [if_pos hle, e, if_neg (show ¬ _ ≤ c by omega)]
          simp
        · have e : max (max_over (fun v => v.1) V) (max_over (fun v => v.2) V) = M := by omega
          rw [if_neg hle, e, if_neg (show ¬ M ≤ c by omega)]
          have h1 : x ≠ M := by omega
          have h2 : y ≠ M := by omega
          simp [h1, h2]
    · by_cases hy : y > c
      · have hs : LGRV_step (c, p) (x, y) = (y, 1) := by simp [LGRV_step, hx, hy]
        rw [hs, ih1]
        by_cases hle : max (max_over (fun v => v.1) V) (max_over (fun v => v.2) V) ≤ y
        · have e : M = y := by omega
          have hxy : x ≠ y := by omega
          rw [if_pos hle, e, if_neg (show ¬ _ ≤ c by omega)]
          simp [hxy]
        · have e : max (max_over (fun v => v.1) V) (max_over (fun v => v.2) V) = M := by omega
          rw [if_neg hle, e, if_neg (show ¬ M ≤ c by omega)]
          have h1 : x ≠ M := by omega
          have h2 : y ≠ M := by omega
          simp [h1, h2]
      · have hs : LGRV_step (c, p) (x, y) = (c, p) := by simp [LGRV_step, hx, hy]
        rw [hs, ih1]
        by_cases hle : max (max_over (fun v => v.1) V) (max_over (fun v => v.2) V) ≤ c
        · rw [if_pos hle, if_pos (show M ≤ c by omega)]
        · have e : max (max_over (fun v => v.1) V) (max_over (fun v => v.2) V) = M := by omega
          rw [if_neg hle, e, if_neg (show ¬ M ≤ c by omega)]
          have h1 : x ≠ M := by omega
          have h2 : y ≠ M := by omega
          simp [h1, h2]


theorem le_max_over (q : Nat × Nat → Nat) (V : List (Nat × Nat)) (v : Nat × Nat) (hv : v ∈ V) :
    q v ≤ max_over q V := by
  induction V with
  | nil => simp at hv
  | cons w V ih =>
    rw [max_over_cons]
    rcases List.mem_cons.1 hv with rfl | hv
    · exact le_max_left _ _
    · exact le_trans (ih hv) (le_max_right _ _)

theorem max_over_attained (q : Nat × Nat → Nat) (V : List (Nat × Nat)) (hpos : 0 < max_over q V) :
    ∃ v ∈ V, q v = max_over q V := by
  induction V with
  | nil => simp [max_over] at hpos
  | cons w V ih =>
    rw [max_over_cons] at hpos ⊢
    by_cases hle : max_over q V ≤ q w
    · exact ⟨w, List.mem_cons_self _ _, by omega⟩
    · obtain ⟨v, hv, he⟩ := ih (by omega)
      exact ⟨v, List.mem_cons_of_mem _ hv, by omega⟩

theorem LGRV_prob_eq (V : List (Nat × Nat)) :
    LGRV_prob V =
      if max (max_over (fun v => v.1) V) (max_over (fun v => v.2) V) = 0 then 0
      else if V.findIdx (fun v => decide (v.1 = max (max_over (fun v => v.1) V) (max_over (fun v => v.2) V)))
              ≤ V.findIdx (fun v => decide (v.2 = max (max_over (fun v => v.1) V) (max_over (fun v => v.2) V)))
           then 0 else 1 := by
  unfold LGRV_prob
  rw [LGRV_foldl V _ rfl 0 0]
  by_cases h0 : max (max_over (fun v => v.1) V) (max_over (fun v => v.2) V) = 0
  · rw [if_pos (by omega), if_pos h0]
  · rw [if_neg (by omega), if_neg h0]

/-! ## Lemmas on the near/far split -/

theorem split_foldl (grp : List frac_t) (c : Nat × Nat) :
    grp.foldl (fun c f => if frac_t.lt f (frac_t.init 1 2) then (c.1 + 1, c.2)
        else (c.1, c.2 + 1)) c
      = (c.1 + grp.countP (fun f => frac_t.lt f (frac_t.init 1 2)),
         c.2 + grp.countP (fun f => ! frac_t.lt f (frac_t.init 1 2))) := by
  induction grp generalizing c with
  | nil => simp
  | cons f grp ih =>
    rw [List.foldl_cons, ih]
    by_cases hf : frac_t.lt f (frac_t.init 1 2) = true
    · simp [hf, List.countP_cons]
      omega
    · simp [hf, List.countP_cons]
      omega

theorem split_eq_countP (grp : List frac_t) :
    split grp = (grp.countP (fun f => frac_t.lt f (frac_t.init 1 2)),
                 grp.countP (fun f => ! frac_t.lt f (frac_t.init 1 2))) := by
  unfold split
  rw [split_foldl]
  simp

theorem split_perm (l1 l2 : List frac_t) (hp : l1.Perm l2) : split l1 = split l2 := by
  rw [split_eq_countP, split_eq_countP, hp.countP_eq, hp.countP_eq]

/-- With a positive stored denominator the comparison with `frac_t(1, 2)` is
the comparison of the rational value with 1/2. -/
theorem lt_half_iff (a b : Int) (hb : 0 < b) :
    frac_t.lt ⟨a, b⟩ (frac_t.init 1 2) = true ↔ (a : ℚ) / (b : ℚ) < 1 / 2 := by
  have hbq : (0 : ℚ) < (b : ℚ) := by exact_mod_cast hb
  rw [init_eq]
  simp only [frac_t.lt, decide_eq_true_eq, mul_one]
  rw [div_lt_div_iff₀ hbq (by norm_num), one_mul]
  exact_mod_cast Iff.rfl

/-- With positive stored denominators `operator<` is the order of the values. -/
theorem lt_exact_of_pos (a b c d : Int) (hb : 0 < b) (hd : 0 < d) :
    frac_t.lt ⟨a, b⟩ ⟨c, d⟩ = true ↔ (a : ℚ) / (b : ℚ) < (c : ℚ) / (d : ℚ) := by
  have hbq : (0 : ℚ) < (b : ℚ) := by exact_mod_cast hb
  have hdq : (0 : ℚ) < (d : ℚ) := by exact_mod_cast hd
  simp only [frac_t.lt, decide_eq_true_eq]
  rw [div_lt_div_iff₀ hbq hdq, mul_comm (c : ℚ) (b : ℚ)]
  exact_mod_cast Iff.rfl

/-- With nonzero stored denominators `operator==` is the equality of the values. -/
theorem eq_exact_of_ne_zero (a b c d : Int) (hb : b ≠ 0) (hd : d ≠ 0) :
    frac_t.eq ⟨a, b⟩ ⟨c, d⟩ = true ↔ (a : ℚ) / (b : ℚ) = (c : ℚ) / (d : ℚ) := by
  have hbq : (b : ℚ) ≠ 0 := by exact_mod_cast hb
  have hdq : (d : ℚ) ≠ 0 := by exact_mod_cast hd
  simp only [frac_t.eq, decide_eq_true_eq]
  rw [div_eq_div_iff hbq hdq, mul_comm (c : ℚ) (b : ℚ)]
  exact_mod_cast Iff.rfl

theorem splits_getElem? (I : Instance) (i : Nat) (hi : i < I.m) :
    (splits I)[i]? = some (split (I.G.getD (i + 1) [])) := by
  unfold splits
  rw [List.getElem?_map, List.getElem?_range' 1 1 hi]
  simp [Nat.add_comm]

/-! ## `PEPM`: the divisors and the mirror image -/

theorem max_over_congr (q1 q2 : Nat × Nat → Nat) (V : List (Nat × Nat))
    (hq : ∀ v, q1 v = q2 v) : max_over q1 V = max_over q2 V := by
  have : q1 = q2 := funext hq
  rw [this]

theorem max_over_map_swap (q : Nat × Nat → Nat) (V : List (Nat × Nat)) :
    max_over q (V.map Prod.swap) = max_over (fun v => q v.swap) V := by
  unfold max_over
  rw [List.map_map]
  rfl

theorem max_over_mono (q1 q2 : Nat × Nat → Nat) (V : List (Nat × Nat))
    (hq : ∀ v, q1 v ≤ q2 v) : max_over q1 V ≤ max_over q2 V := by
  induction V with
  | nil => simp [max_over]
  | cons v V ih =>
    rw [max_over_cons, max_over_cons]
    exact max_le_max (hq v) ih

theorem two_mul_max_snd_le (V : List (Nat × Nat)) :
    2 * max_over (fun v => v.2) V ≤ max_over (fun v => v.1 + v.2 * 2) V := by
  by_cases hpos : 0 < max_over (fun v => v.2) V
  · obtain ⟨v, hv, he⟩ := max_over_attained (fun v => v.2) V hpos
    have := le_max_over (fun v => v.1 + v.2 * 2) V v hv
    dsimp only at this he
    omega
  · omega

theorem two_mul_max_fst_le (V : List (Nat × Nat)) :
    2 * max_over (fun v => v.1) V ≤ max_over (fun v => v.1 * 2 + v.2) V := by
  by_cases hpos : 0 < max_over (fun v => v.1) V
  · obtain ⟨v, hv, he⟩ := max_over_attained (fun v => v.1) V hpos
    have := le_max_over (fun v => v.1 * 2 + v.2) V v hv
    dsimp only at this he
    omega
  · omega

/-- The arithmetic behind the general branch of `PEPM`: with `b <= a`, `d <= c`,
`2 d <= a`, `2 b <= c` and `b, d > 0`, the divisor `a/b + c/d - 2` is positive
and the quotient lies in `[0, 1]`. -/
theorem general_branch_bounds (a b c d : ℚ) (hb : 0 < b) (hd : 0 < d)
    (hab : b ≤ a) (hcd : d ≤ c) (had : 2 * d ≤ a) (hcb : 2 * b ≤ c) :
    0 < a / b + c / d - 2 ∧ 0 ≤ (a / b - 1) / (a / b + c / d - 2) ∧
    (a / b - 1) / (a / b + c / d - 2) ≤ 1 := by
  have h1 : 1 ≤ a / b := by rw [le_div_iff₀ hb]; linarith
  have h2 : 1 ≤ c / d := by rw [le_div_iff₀ hd]; linarith
  have h3 : 2 * d / b ≤ a / b := by
    apply div_le_div_of_nonneg_right had (le_of_lt hb)
  have h4 : 2 * b / d ≤ c / d := by
    apply div_le_div_of_nonneg_right hcb (le_of_lt hd)
  have h5 : 0 < a / b + c / d - 2 := by
    by_cases hbd : b ≤ d
    · have : 2 ≤ 2 * d / b := by rw [le_div_iff₀ hb]; linarith
      linarith
    · have : 2 ≤ 2 * b / d := by rw [le_div_iff₀ hd]; linarith
      linarith
  refine ⟨h5, div_nonneg (by linarith) (le_of_lt h5), ?_⟩
  rw [div_le_one h5]
  linarith

theorem PEPM_prob_general (V : List (Nat × Nat))
    (hb : max_over (fun v => v.1) V ≠ 0) (hd : max_over (fun v => v.2) V ≠ 0) :
    PEPM_prob V =
      ((max_over (fun v => v.1 + v.2 * 2) V : ℚ) / (max_over (fun v => v.1) V : ℚ) - 1) /
        ((max_over (fun v => v.1 + v.2 * 2) V : ℚ) / (max_over (fun v => v.1) V : ℚ)
          + (max_over (fun v => v.1 * 2 + v.2) V : ℚ) / (max_over (fun v => v.2) V : ℚ) - 2) := by
  unfold PEPM_prob
  rw [PEPM_bounds_eq]
  simp [hb, hd]

theorem PEPM_general_bounds (V : List (Nat × Nat))
    (hb : max_over (fun v => v.1) V ≠ 0) (hd : max_over (fun v => v.2) V ≠ 0) :
    0 < (max_over (fun v => v.1 + v.2 * 2) V : ℚ) / (max_over (fun v => v.1) V : ℚ)
          + (max_over (fun v => v.1 * 2 + v.2) V : ℚ) / (max_over (fun v => v.2) V : ℚ) - 2 ∧
    0 ≤ PEPM_prob V ∧ PEPM_prob V ≤ 1 := by
  rw [PEPM_prob_general V hb hd]
  apply general_branch_bounds
  · exact_mod_cast Nat.pos_of_ne_zero hb
  · exact_mod_cast Nat.pos_of_ne_zero hd
  · exact_mod_cast max_over_mono (fun v => v.1) (fun v => v.1 + v.2 * 2) V (fun v => by dsimp only; omega)
  · exact_mod_cast max_over_mono (fun v => v.2) (fun v => v.1 * 2 + v.2) V (fun v => by dsimp only; omega)
  · exact_mod_cast two_mul_max_snd_le V
  · exact_mod_cast two_mul_max_fst_le V

theorem PEPM_prob_range (V : List (Nat × Nat)) : 0 ≤ PEPM_prob V ∧ PEPM_prob V ≤ 1 := by
  by_cases hb : max_over (fun v => v.1) V = 0
  · have : PEPM_prob V = 1 := by
      unfold PEPM_prob
      rw [PEPM_bounds_eq]
      simp [hb]
    rw [this]; norm_num
  · by_cases hd : max_over (fun v => v.2) V = 0
    · have : PEPM_prob V = 0 := by
        unfold PEPM_prob
        rw [PEPM_bounds_eq]
        simp [hb, hd]
      rw [this]; norm_num
    · exact (PEPM_general_bounds V hb hd).2

/-! ## Acceptance of the input and the groups that count -/

/-- The reading loop ends without a failed assertion exactly when every record
passes `a <= b && 0 <= g && g <= m` and `b != 0`. -/
theorem read_records_isSome (m : Nat) (recs : List (Int × Int × Int)) (G : List (List frac_t)) :
    (read_records m recs G).isSome = true ↔
      ∀ r ∈ recs, r.1 ≤ r.2.1 ∧ r.2.1 ≠ 0 ∧ 0 ≤ r.2.2 ∧ r.2.2 ≤ (m : Int) := by
  induction recs generalizing G with
  | nil => simp [read_records]
  | cons r recs ih =>
    obtain ⟨a, b, g⟩ := r
    rw [List.forall_mem_cons]
    simp only [read_records]
    by_cases hc : a ≤ b ∧ 0 ≤ g ∧ g ≤ (m : Int)
    · rw [if_pos hc]
      by_cases hb : b = 0
      · simp [frac_t.ctor, hb]
      · rw [ctor_eq a b hb]
        simp only
        rw [ih]
        simp [hc.1, hc.2.1, hc.2.2, hb]
    · rw [if_neg hc]
      simp only [Option.isSome_none, Bool.false_eq_true, false_iff]
      intro hall
      exact hc ⟨hall.1.1, hall.1.2.2.1, hall.1.2.2.2⟩

theorem read_input_isSome (m : Nat) (recs : List (Int × Int × Int)) :
    (read_input m recs).isSome = true ↔
      ∀ r ∈ recs, r.1 ≤ r.2.1 ∧ r.2.1 ≠ 0 ∧ 0 ≤ r.2.2 ∧ r.2.2 ≤ (m : Int) := by
  rw [← read_records_isSome m recs (List.replicate (m + 1) [])]
  unfold read_input
  cases read_records m recs (List.replicate (m + 1) []) <;> simp

/-- `max_h` reads `m` and the groups `1..m` only. -/
theorem max_h_congr (I J : Instance) (hm : I.m = J.m)
    (hG : ∀ k : Nat, 1 ≤ k → I.G.getD k [] = J.G.getD k []) (x : ℚ) :
    max_h I x = max_h J x := by
  unfold max_h
  rw [hm]
  apply List.foldl_ext
  intro ans i hi
  have h1 : 1 ≤ i := (List.mem_range'_1.1 hi).1
  unfold h
  rw [hG i h1]

theorem foldl_cost_ge (x : ℚ) (l : List frac_t) (s : ℚ)
    (hl : ∀ f ∈ l, |f.value - x| ≤ 1) :
    s ≤ l.foldl (fun ans f => ans + (1 - |f.value - x|)) s := by
  induction l generalizing s with
  | nil => simp
  | cons f l ih =>
    rw [List.foldl_cons]
    have h1 := ih (s + (1 - |f.value - x|)) (fun g hg => hl g (List.mem_cons_of_mem _ hg))
    have h2 := hl f (List.mem_cons_self _ _)
    linarith

theorem foldl_max_ge_seed (l : List ℚ) (c : ℚ) : c ≤ l.foldl max c := by
  induction l generalizing c with
  | nil => simp
  | cons d l ih =>
    rw [List.foldl_cons]
    exact le_trans (le_max_left _ _) (ih _)

theorem max_group_cost_ge_first (I : Instance) (x : ℚ) (hm : 1 ≤ I.m) :
    h I 1 x ≤ max_group_cost I x := by
  unfold max_group_cost
  obtain ⟨j, hj⟩ : ∃ j, I.m = j + 1 := ⟨I.m - 1, by omega⟩
  rw [hj, List.range'_succ]
  simp only [List.map_cons]
  exact foldl_max_ge_seed _ _

theorem pow2_eq (k : Int) : pow2 k = (2 : ℚ) ^ k := by
  unfold pow2
  split
  · rename_i h
    obtain ⟨n, rfl⟩ := Int.eq_ofNat_of_zero_le h
    simp
  · rename_i h
    obtain ⟨n, hn⟩ : ∃ n : Nat, -k = (n : Int) := Int.eq_ofNat_of_zero_le (by omega)
    have hk : k = -(n : Int) := by omega
    rw [hn, hk]
    simp

theorem pow2_pos (k : Int) : 0 < pow2 k := by
  rw [pow2_eq]; positivity

theorem pow2_lt_iff (a b : Int) : pow2 a < pow2 b ↔ a < b := by
  rw [pow2_eq, pow2_eq]
  exact zpow_lt_zpow_iff_right₀ (by norm_num)

theorem pow2_le_iff (a b : Int) : pow2 a ≤ pow2 b ↔ a ≤ b := by
  rw [pow2_eq, pow2_eq]
  exact zpow_le_zpow_iff_right₀ (by norm_num)

theorem pow2_add (a b : Int) : pow2 (a + b) = pow2 a * pow2 b := by
  rw [pow2_eq, pow2_eq, pow2_eq, zpow_add₀ (by norm_num)]

theorem bitlen_spec (fuel n : Nat) (hn : 0 < n) (hf : n ≤ fuel) :
    0 < bitlen fuel n ∧ 2 ^ (bitlen fuel n - 1) ≤ n ∧ n < 2 ^ bitlen fuel n := by
  induction fuel generalizing n with
  | zero => omega
  | succ f ih =>
    have hne : n ≠ 0 := by omega
    simp only [bitlen, if_neg hne]
    by_cases h1 : n = 1
    · subst h1
      have h0 : bitlen f (1 / 2) = 0 := by
        cases f <;> simp [bitlen]
      rw [h0]
      simp
    · obtain ⟨hb, hlo, hhi⟩ := ih (n / 2) (by omega) (by omega)
      refine ⟨by omega, ?_, ?_⟩
      · have e : bitlen f (n / 2) + 1 - 1 = (bitlen f (n / 2) - 1) + 1 := by omega
        rw [e, pow_succ]
        omega
      · rw [pow_succ]
        omega


theorem ilog2_bracket (x : ℚ) (hx : 0 < x) :
    pow2 ((bitlen x.num.natAbs x.num.natAbs : Int) - (bitlen x.den x.den : Int) - 1) ≤ x ∧
    x < pow2 ((bitlen x.num.natAbs x.num.natAbs : Int) - (bitlen x.den x.den : Int) + 1) := by
  have hnum : 0 < x.num := Rat.num_pos.2 hx
  have hnat : 0 < x.num.natAbs := Int.natAbs_pos.2 (ne_of_gt hnum)
  obtain ⟨hbn, hnlo, hnhi⟩ := bitlen_spec _ _ hnat (le_refl _)
  obtain ⟨hbd, hdlo, hdhi⟩ := bitlen_spec _ _ x.den_pos (le_refl _)
  generalize bitlen x.num.natAbs x.num.natAbs = bn at *
  generalize bitlen x.den x.den = bd at *
  obtain ⟨bn1, rfl⟩ : ∃ j, bn = j + 1 := ⟨bn - 1, by omega⟩
  obtain ⟨bd1, rfl⟩ : ∃ j, bd = j + 1 := ⟨bd - 1, by omega⟩
  simp only [Nat.add_sub_cancel] at hnlo hdlo
  have hxeq : x = (x.num.natAbs : ℚ) / (x.den : ℚ) := by
    have h1 : (x.num.natAbs : Int) = x.num := Int.natAbs_of_nonneg (le_of_lt hnum)
    have h2 : (x.num.natAbs : ℚ) = (x.num : ℚ) := by
      rw [Nat.cast_natAbs, abs_of_pos hnum]
    rw [h2]
    exact (Rat.num_div_den x).symm
  have hdq : (0 : ℚ) < (x.den : ℚ) := by exact_mod_cast x.den_pos
  have hnlo' : ((2 : ℚ) ^ bn1) ≤ (x.num.natAbs : ℚ) := by exact_mod_cast hnlo
  have hnhi' : (x.num.natAbs : ℚ) < (2 : ℚ) ^ (bn1 + 1) := by exact_mod_cast hnhi
  have hdlo' : ((2 : ℚ) ^ bd1) ≤ (x.den : ℚ) := by exact_mod_cast hdlo
  have hdhi' : (x.den : ℚ) < (2 : ℚ) ^ (bd1 + 1) := by exact_mod_cast hdhi
  have e1 : (((bn1 + 1 : Nat) : Int) - ((bd1 + 1 : Nat) : Int) - 1) = (bn1 : Int) - ((bd1 + 1 : Nat) : Int) := by
    push_cast; ring
  have e2 : (((bn1 + 1 : Nat) : Int) - ((bd1 + 1 : Nat) : Int) + 1) = ((bn1 + 1 : Nat) : Int) - (bd1 : Int) := by
    push_cast; ring
  rw [e1, e2, pow2_eq, pow2_eq, zpow_sub₀ (by norm_num), zpow_sub₀ (by norm_num)]
  simp only [zpow_natCast]
  have p1 : (0 : ℚ) < (2 : ℚ) ^ (bd1 + 1) := by positivity
  have p2 : (0 : ℚ) < (2 : ℚ) ^ bd1 := by positivity
  constructor
  · rw [hxeq, div_le_div_iff₀ p1 hdq]
    calc (2 : ℚ) ^ bn1 * (x.den : ℚ) ≤ (x.num.natAbs : ℚ) * (x.den : ℚ) :=
          mul_le_mul_of_nonneg_right hnlo' (le_of_lt hdq)
      _ ≤ (x.num.natAbs : ℚ) * (2 : ℚ) ^ (bd1 + 1) :=
          mul_le_mul_of_nonneg_left (le_of_lt hdhi') (by positivity)
  · rw [hxeq, div_lt_div_iff₀ hdq p2]
    calc (x.num.natAbs : ℚ) * (2 : ℚ) ^ bd1 ≤ (x.num.natAbs : ℚ) * (x.den : ℚ) :=
          mul_le_mul_of_nonneg_left hdlo' (by positivity)
      _ < (2 : ℚ) ^ (bn1 + 1) * (x.den : ℚ) := mul_lt_mul_of_pos_right hnhi' hdq

theorem ilog2_spec (x : ℚ) (hx : 0 < x) :
    pow2 (ilog2 x) ≤ x ∧ x < pow2 (ilog2 x + 1) := by
  obtain ⟨hlo, hhi⟩ := ilog2_bracket x hx
  unfold ilog2
  dsimp only
  split
  · rename_i h
    exact ⟨h, hhi⟩
  · rename_i h
    refine ⟨hlo, ?_⟩
    rw [sub_add_cancel]
    exact not_le.1 h

theorem ilog2_unique (x : ℚ) (e : Int) (hlo : pow2 e ≤ x) (hhi : x < pow2 (e + 1)) :
    ilog2 x = e := by
  have hx : 0 < x := lt_of_lt_of_le (pow2_pos e) hlo
  obtain ⟨h1, h2⟩ := ilog2_spec x hx
  have a1 : e < ilog2 x + 1 := (pow2_lt_iff _ _).1 (lt_of_le_of_lt hlo h2)
  have a2 : ilog2 x < e + 1 := (pow2_lt_iff _ _).1 (lt_of_le_of_lt h1 hhi)
  omega


theorem rhe_intCast (n : Int) : rhe (n : ℚ) = n := by
  unfold rhe
  simp

theorem rhe_bounds (t : ℚ) : ⌊t⌋ ≤ rhe t ∧ rhe t ≤ ⌊t⌋ + 1 := by
  unfold rhe
  split_ifs <;> omega

theorem rhe_mono (s t : ℚ) (hst : s ≤ t) : rhe s ≤ rhe t := by
  have hfl : ⌊s⌋ ≤ ⌊t⌋ := Int.floor_le_floor hst
  by_cases heq : ⌊s⌋ = ⌊t⌋
  · have hfrac : s - (⌊s⌋ : ℚ) ≤ t - (⌊t⌋ : ℚ) := by rw [heq]; linarith
    unfold rhe
    rw [heq] at hfrac ⊢
    split_ifs <;> first | omega | (exfalso; linarith)
  · have h1 := (rhe_bounds s).2
    have h2 := (rhe_bounds t).1
    omega

/-- The scaled significand of a positive `x` lies in `[2^52, 2^53)`. -/
theorem scaled_bounds (x : ℚ) (e : Int) (hlo : pow2 e ≤ x) (hhi : x < pow2 (e + 1)) :
    ((2 ^ 52 : Int) : ℚ) ≤ x / pow2 (e - 52) ∧ x / pow2 (e - 52) < ((2 ^ 53 : Int) : ℚ) := by
  have hu : 0 < pow2 (e - 52) := pow2_pos _
  have e1 : pow2 e = ((2 ^ 52 : Int) : ℚ) * pow2 (e - 52) := by
    have : e = 52 + (e - 52) := by ring
    conv_lhs => rw [this, pow2_add]
    congr 1
  have e2 : pow2 (e + 1) = ((2 ^ 53 : Int) : ℚ) * pow2 (e - 52) := by
    have : e + 1 = 53 + (e - 52) := by ring
    conv_lhs => rw [this, pow2_add]
    congr 1
  constructor
  · rw [le_div_iff₀ hu, ← e1]; exact hlo
  · rw [div_lt_iff₀ hu, ← e2]; exact hhi

theorem flpos_eq (x : ℚ) (e : Int) (hlo : pow2 e ≤ x) (hhi : x < pow2 (e + 1)) :
    flpos x = (rhe (x / pow2 (e - 52)) : ℚ) * pow2 (e - 52) := by
  unfold flpos
  rw [ilog2_unique x e hlo hhi]

theorem flpos_bounds (x : ℚ) (e : Int) (hlo : pow2 e ≤ x) (hhi : x < pow2 (e + 1)) :
    pow2 e ≤ flpos x ∧ flpos x ≤ pow2 (e + 1) := by
  obtain ⟨h1, h2⟩ := scaled_bounds x e hlo hhi
  have hu : 0 < pow2 (e - 52) := pow2_pos _
  have r1 : (2 ^ 52 : Int) ≤ rhe (x / pow2 (e - 52)) := by
    have := rhe_mono _ _ h1
    rwa [rhe_intCast] at this
  have r2 : rhe (x / pow2 (e - 52)) ≤ (2 ^ 53 : Int) := by
    have := rhe_mono _ _ (le_of_lt h2)
    rwa [rhe_intCast] at this
  have e1 : pow2 e = ((2 ^ 52 : Int) : ℚ) * pow2 (e - 52) := by
    have : e = 52 + (e - 52) := by ring
    conv_lhs => rw [this, pow2_add]
    congr 1
  have e2 : pow2 (e + 1) = ((2 ^ 53 : Int) : ℚ) * pow2 (e - 52) := by
    have : e + 1 = 53 + (e - 52) := by ring
    conv_lhs => rw [this, pow2_add]
    congr 1
  rw [flpos_eq x e hlo hhi, e1, e2]
  constructor
  · exact mul_le_mul_of_nonneg_right (by exact_mod_cast r1) (le_of_lt hu)
  · exact mul_le_mul_of_nonneg_right (by exact_mod_cast r2) (le_of_lt hu)

theorem flpos_pos (x : ℚ) (hx : 0 < x) : 0 < flpos x := by
  obtain ⟨hlo, hhi⟩ := ilog2_spec x hx
  exact lt_of_lt_of_le (pow2_pos _) (flpos_bounds x _ hlo hhi).1

theorem flpos_mono (x y : ℚ) (hx : 0 < x) (hxy : x ≤ y) : flpos x ≤ flpos y := by
  have hy : 0 < y := lt_of_lt_of_le hx hxy
  obtain ⟨hxlo, hxhi⟩ := ilog2_spec x hx
  obtain ⟨hylo, hyhi⟩ := ilog2_spec y hy
  have hle : ilog2 x ≤ ilog2 y := by
    have : ilog2 x < ilog2 y + 1 := (pow2_lt_iff _ _).1 (lt_of_le_of_lt (le_trans hxlo hxy) hyhi)
    omega
  by_cases heq : ilog2 x = ilog2 y
  · unfold flpos
    rw [heq]
    have hu : 0 < pow2 (ilog2 y - 52) := pow2_pos _
    apply mul_le_mul_of_nonneg_right _ (le_of_lt hu)
    have := rhe_mono (x / pow2 (ilog2 y - 52)) (y / pow2 (ilog2 y - 52))
      (div_le_div_of_nonneg_right hxy (le_of_lt hu))
    exact_mod_cast this
  · have h1 := (flpos_bounds x _ hxlo hxhi).2
    have h2 := (flpos_bounds y _ hylo hyhi).1
    have h3 : pow2 (ilog2 x + 1) ≤ pow2 (ilog2 y) := (pow2_le_iff _ _).2 (by omega)
    linarith

theorem fl_zero : fl 0 = 0 := by simp [fl]

theorem fl_of_pos (x : ℚ) (hx : 0 < x) : fl x = flpos x := by
  simp [fl, ne_of_gt hx, hx]

theorem fl_of_neg (x : ℚ) (hx : x < 0) : fl x = - flpos (-x) := by
  simp [fl, ne_of_lt hx, not_lt.2 (le_of_lt hx)]

theorem fl_nonneg (x : ℚ) (hx : 0 ≤ x) : 0 ≤ fl x := by
  rcases eq_or_lt_of_le hx with h | h
  · rw [← h, fl_zero]
  · rw [fl_of_pos x h]; exact le_of_lt (flpos_pos x h)

theorem fl_nonpos (x : ℚ) (hx : x ≤ 0) : fl x ≤ 0 := by
  rcases eq_or_lt_of_le hx with h | h
  · rw [h, fl_zero]
  · rw [fl_of_neg x h]
    have := flpos_pos (-x) (by linarith)
    linarith

/-- Rounding to nearest is monotone. -/
theorem fl_mono (x y : ℚ) (hxy : x ≤ y) : fl x ≤ fl y := by
  rcases lt_trichotomy x 0 with hx | hx | hx
  · rcases lt_or_le y 0 with hy | hy
    · rw [fl_of_neg x hx, fl_of_neg y hy]
      have := flpos_mono (-y) (-x) (by linarith) (by linarith)
      linarith
    · exact le_trans (fl_nonpos x (le_of_lt hx)) (fl_nonneg y hy)
  · rw [hx, fl_zero]
    exact fl_nonneg y (by rw [← hx]; exact hxy)
  · have hy : 0 < y := lt_of_lt_of_le hx hxy
    rw [fl_of_pos x hx, fl_of_pos y hy]
    exact flpos_mono x y hx hxy

/-- In exact arithmetic, swapping the two columns turns `p` into `1 - p` as soon as
some count is positive; the all-zero input gives 1 both ways. -/
theorem PEPM_mirror_exact (V : List (Nat × Nat)) :
    ((∃ v ∈ V, v.1 ≠ 0 ∨ v.2 ≠ 0) → PEPM_prob (V.map Prod.swap) = 1 - PEPM_prob V) ∧
    ((∀ v ∈ V, v.1 = 0 ∧ v.2 = 0) → PEPM_prob V = 1 ∧ PEPM_prob (V.map Prod.swap) = 1) := by
  have ha : max_over (fun v => v.1 + v.2 * 2) (V.map Prod.swap)
      = max_over (fun v => v.1 * 2 + v.2) V := by
    rw [max_over_map_swap]
    exact max_over_congr _ _ V (fun v => by simp [Prod.swap]; omega)
  have hb : max_over (fun v => v.1) (V.map Prod.swap) = max_over (fun v => v.2) V := by
    rw [max_over_map_swap]
    exact max_over_congr _ _ V (fun v => by simp [Prod.swap])
  have hc : max_over (fun v => v.1 * 2 + v.2) (V.map Prod.swap)
      = max_over (fun v => v.1 + v.2 * 2) V := by
    rw [max_over_map_swap]
    exact max_over_congr _ _ V (fun v => by simp [Prod.swap]; omega)
  have hd : max_over (fun v => v.2) (V.map Prod.swap) = max_over (fun v => v.1) V := by
    rw [max_over_map_swap]
    exact max_over_congr _ _ V (fun v => by simp [Prod.swap])
  have hswap : PEPM_prob (V.map Prod.swap) =
      if max_over (fun v => v.2) V = 0 then 1
      else if max_over (fun v => v.1) V = 0 then 0
      else ((max_over (fun v => v.1 * 2 + v.2) V : ℚ) / (max_over (fun v => v.2) V : ℚ) - 1) /
           ((max_over (fun v => v.1 * 2 + v.2) V : ℚ) / (max_over (fun v => v.2) V : ℚ)
             + (max_over (fun v => v.1 + v.2 * 2) V : ℚ) / (max_over (fun v => v.1) V : ℚ) - 2) := by
    unfold PEPM_prob
    rw [PEPM_bounds_eq, ha, hb, hc, hd]
  have horig : PEPM_prob V =
      if max_over (fun v => v.1) V = 0 then 1
      else if max_over (fun v => v.2) V = 0 then 0
      else ((max_over (fun v => v.1 + v.2 * 2) V : ℚ) / (max_over (fun v => v.1) V : ℚ) - 1) /
           ((max_over (fun v => v.1 + v.2 * 2) V : ℚ) / (max_over (fun v => v.1) V : ℚ)
             + (max_over (fun v => v.1 * 2 + v.2) V : ℚ) / (max_over (fun v => v.2) V : ℚ) - 2) := by
    unfold PEPM_prob
    rw [PEPM_bounds_eq]
  have hz1 := max_over_eq_zero (fun v => v.1) V
  have hz2 := max_over_eq_zero (fun v => v.2) V
  constructor
  · rintro ⟨v, hv, hne⟩
    by_cases h1 : max_over (fun v => v.1) V = 0
    · have h2 : max_over (fun v => v.2) V ≠ 0 := by
        intro h2
        rcases hne with hne | hne
        · exact hne (hz1.1 h1 v hv)
        · exact hne (hz2.1 h2 v hv)
      rw [hswap, horig, if_neg h2, if_pos h1, if_pos h1]
      norm_num
    · by_cases h2 : max_over (fun v => v.2) V = 0
      · rw [hswap, horig, if_pos h2, if_neg h1, if_pos h2]
        norm_num
      · rw [hswap, horig, if_neg h2, if_neg h1, if_neg h1, if_neg h2]
        have hpos := (PEPM_general_bounds V h1 h2).1
        have hne0 := ne_of_gt hpos
        rw [eq_sub_iff_add_eq, add_comm ((max_over (fun v => v.1 * 2 + v.2) V : ℚ) / _)
          ((max_over (fun v => v.1 + v.2 * 2) V : ℚ) / _), ← add_div]
        rw [div_eq_one_iff_eq hne0]
        ring
  · intro hall
    have h1 : max_over (fun v => v.1) V = 0 := hz1.2 (fun v hv => (hall v hv).1)
    have h2 : max_over (fun v => v.2) V = 0 := hz2.2 (fun v hv => (hall v hv).2)
    rw [hswap, horig, if_pos h1, if_pos h2]
    exact ⟨rfl, rfl⟩

theorem fl_one : fl 1 = 1 := by decide!

theorem fl_two : fl 2 = 2 := by decide!

theorem fl_three : fl 3 = 3 := by decide!

/-! ## The scan variable in `double` -/

theorem PEPM_prob_d_general (V : List (Nat × Nat))
    (hb : max_over (fun v => v.1) V ≠ 0) (hd : max_over (fun v => v.2) V ≠ 0) :
    PEPM_prob_d V =
      fl (fl (fl ((max_over (fun v => v.1 + v.2 * 2) V : ℚ) / (max_over (fun v => v.1) V : ℚ)) - 1) /
          fl (fl (fl ((max_over (fun v => v.1 + v.2 * 2) V : ℚ) / (max_over (fun v => v.1) V : ℚ))
                + fl ((max_over (fun v => v.1 * 2 + v.2) V : ℚ) / (max_over (fun v => v.2) V : ℚ))) - 2)) := by
  unfold PEPM_prob_d
  rw [PEPM_bounds_eq]
  simp [hb, hd]

/-- The rounded divisor of the general branch is at least 1 and the rounded
quotient is non-negative. -/
theorem general_branch_bounds_d (a b c d : ℚ) (hb : 0 < b) (hd : 0 < d)
    (hab : b ≤ a) (hcd : d ≤ c) (had : 2 * d ≤ a) (hcb : 2 * b ≤ c) :
    1 ≤ fl (fl (fl (a / b) + fl (c / d)) - 2) ∧
    0 ≤ fl (fl (fl (a / b) - 1) / fl (fl (fl (a / b) + fl (c / d)) - 2)) := by
  have h1 : 1 ≤ a / b := by rw [le_div_iff₀ hb]; linarith
  have h2 : 1 ≤ c / d := by rw [le_div_iff₀ hd]; linarith
  have x1 : 1 ≤ fl (a / b) := by rw [← fl_one]; exact fl_mono _ _ h1
  have y1 : 1 ≤ fl (c / d) := by rw [← fl_one]; exact fl_mono _ _ h2
  have hsum : 3 ≤ fl (a / b) + fl (c / d) := by
    by_cases hbd : b ≤ d
    · have : 2 ≤ a / b := by rw [le_div_iff₀ hb]; linarith
      have x2 : 2 ≤ fl (a / b) := by rw [← fl_two]; exact fl_mono _ _ this
      linarith
    · have : 2 ≤ c / d := by rw [le_div_iff₀ hd]; linarith
      have y2 : 2 ≤ fl (c / d) := by rw [← fl_two]; exact fl_mono _ _ this
      linarith
  have hs3 : 3 ≤ fl (fl (a / b) + fl (c / d)) := by rw [← fl_three]; exact fl_mono _ _ hsum
  have hden : 1 ≤ fl (fl (fl (a / b) + fl (c / d)) - 2) := by
    rw [← fl_one]; exact fl_mono _ _ (by linarith)
  have hnum : 0 ≤ fl (fl (a / b) - 1) := fl_nonneg _ (by linarith)
  exact ⟨hden, fl_nonneg _ (div_nonneg hnum (by linarith))⟩

theorem PEPM_general_bounds_d (V : List (Nat × Nat))
    (hb : max_over (fun v => v.1) V ≠ 0) (hd : max_over (fun v => v.2) V ≠ 0) :
    1 ≤ fl (fl (fl ((max_over (fun v => v.1 + v.2 * 2) V : ℚ) / (max_over (fun v => v.1) V : ℚ))
              + fl ((max_over (fun v => v.1 * 2 + v.2) V : ℚ) / (max_over (fun v => v.2) V : ℚ))) - 2) ∧
    0 ≤ PEPM_prob_d V := by
  rw [PEPM_prob_d_general V hb hd]
  apply general_branch_bounds_d
  · exact_mod_cast Nat.pos_of_ne_zero hb
  · exact_mod_cast Nat.pos_of_ne_zero hd
  · exact_mod_cast max_over_mono (fun v => v.1) (fun v => v.1 + v.2 * 2) V (fun v => by dsimp only; omega)
  · exact_mod_cast max_over_mono (fun v => v.2) (fun v => v.1 * 2 + v.2) V (fun v => by dsimp only; omega)
  · exact_mod_cast two_mul_max_snd_le V
  · exact_mod_cast two_mul_max_fst_le V

theorem PEPM_prob_d_nonneg (V : List (Nat × Nat)) : 0 ≤ PEPM_prob_d V := by
  by_cases hb : max_over (fun v => v.1) V = 0
  · have : PEPM_prob_d V = 1 := by
      unfold PEPM_prob_d
      rw [PEPM_bounds_eq]
      simp [hb]
    rw [this]; norm_num
  · by_cases hd : max_over (fun v => v.2) V = 0
    · have : PEPM_prob_d V = 0 := by
        unfold PEPM_prob_d
        rw [PEPM_bounds_eq]
        simp [hb, hd]
      rw [this]
    · exact (PEPM_general_bounds_d V hb hd).2

theorem PEPM_bounds_swap (V : List (Nat × Nat)) :
    PEPM_bounds (V.map Prod.swap) =
      (max_over (fun v => v.1 * 2 + v.2) V, max_over (fun v => v.2) V,
       max_over (fun v => v.1 + v.2 * 2) V, max_over (fun v => v.1) V) := by
  rw [PEPM_bounds_eq, max_over_map_swap, max_over_map_swap, max_over_map_swap, max_over_map_swap]
  have ha : max_over (fun v => (fun v : Nat × Nat => v.1 + v.2 * 2) v.swap) V
      = max_over (fun v => v.1 * 2 + v.2) V :=
    max_over_congr _ _ V (fun v => by simp [Prod.swap]; omega)
  have hc : max_over (fun v => (fun v : Nat × Nat => v.1 * 2 + v.2) v.swap) V
      = max_over (fun v => v.1 + v.2 * 2) V :=
    max_over_congr _ _ V (fun v => by simp [Prod.swap]; omega)
  have hb : max_over (fun v => (fun v : Nat × Nat => v.1) v.swap) V = max_over (fun v => v.2) V :=
    max_over_congr _ _ V (fun v => by simp [Prod.swap])
  have hd : max_over (fun v => (fun v : Nat × Nat => v.2) v.swap) V = max_over (fun v => v.1) V :=
    max_over_congr _ _ V (fun v => by simp [Prod.swap])
  rw [ha, hb, hc, hd]

/-- In `double`, when one of the two columns is all zero and the other is not,
the swapped probability is the complement, exactly. -/
theorem PEPM_mirror_d_degenerate (V : List (Nat × Nat))
    (hne : max_over (fun v => v.1) V ≠ 0 ∨ max_over (fun v => v.2) V ≠ 0)
    (hz : max_over (fun v => v.1) V = 0 ∨ max_over (fun v => v.2) V = 0) :
    PEPM_prob_d (V.map Prod.swap) = 1 - PEPM_prob_d V ∧
    PEPM_prob_d (V.map Prod.swap) = fl (1 - PEPM_prob_d V) := by
  have h0 : fl (1 - 1) = 0 := by decide!
  have h1 : fl (1 - 0) = 1 := by decide!
  unfold PEPM_prob_d
  rw [PEPM_bounds_swap, PEPM_bounds_eq]
  dsimp only
  rcases hz with hb | hd
  · have hd : max_over (fun v => v.2) V ≠ 0 := by
      rcases hne with h | h
      · exact absurd hb h
      · exact h
    rw [if_neg hd, if_pos hb, if_pos hb, h0]
    norm_num
  · have hb : max_over (fun v => v.1) V ≠ 0 := by
      rcases hne with h | h
      · exact h
      · exact absurd hd h
    rw [if_pos hd, if_neg hb, if_pos hd, h1]
    norm_num

theorem PEPM_prob_d_all_zero (V : List (Nat × Nat))
    (hb : max_over (fun v => v.1) V = 0) (hd : max_over (fun v => v.2) V = 0) :
    PEPM_prob_d V = 1 ∧ PEPM_prob_d (V.map Prod.swap) = 1 := by
  unfold PEPM_prob_d
  rw [PEPM_bounds_swap, PEPM_bounds_eq]
  simp [hb, hd]

/-- C1. On the exact grid `x_k = k / 100000`, for every instance read from the
input, `find_optimal` returns a grid point whose `max_h` is at most that of
every grid point, and it is the smallest such grid point; when `n = 0` or
`m = 0` the result is 0. -/
theorem C1_find_optimal_first_grid_minimiser (m : Nat) (recs : List (Int × Int × Int))
    (I : Instance) (hI : read_input m recs = some I) :
    (∃ k, k ≤ 100000 ∧ find_optimal I = grid_pt k ∧
      (∀ j, j ≤ 100000 → max_h I (grid_pt k) ≤ max_h I (grid_pt j)) ∧
      (∀ j, j < k → max_h I (grid_pt k) < max_h I (grid_pt j))) ∧
    ((I.n = 0 ∨ I.m = 0) → find_optimal I = 0) := by
  have hb : ∀ x, max_h I x ≤ (I.n : ℚ) := max_h_le_n I (read_input_bounded m recs I hI)
  obtain ⟨k, hk, hres, hmin, hfirst⟩ := find_optimal_first_min I hb
  refine ⟨⟨k, hk, hres, hmin, hfirst⟩, ?_⟩
  intro h0
  have hconst : ∀ x, max_h I x = 0 := by
    intro x
    rcases h0 with hn | hm
    · have := hb x
      rw [hn] at this
      exact le_antisymm (by simpa using this) (max_h_nonneg I x)
    · simp [max_h, hm]
  cases k with
  | zero => rw [hres, grid_pt_zero]
  | succ k =>
    have := hfirst 0 (by omega)
    rw [hconst, hconst] at this
    exact absurd this (lt_irrefl _)

/-- Witness of C1 on the input `n = 1, m = 1`, record `(0, 1, 1)`. -/
theorem C1_find_optimal_first_grid_minimiser_witness :
    read_input 1 [(0, 1, 1)] = some ⟨1, 1, [[], [⟨0, 1⟩]]⟩ ∧
    ((∃ k, k ≤ 100000 ∧ find_optimal ⟨1, 1, [[], [⟨0, 1⟩]]⟩ = grid_pt k ∧
      (∀ j, j ≤ 100000 → max_h ⟨1, 1, [[], [⟨0, 1⟩]]⟩ (grid_pt k)
          ≤ max_h ⟨1, 1, [[], [⟨0, 1⟩]]⟩ (grid_pt j)) ∧
      (∀ j, j < k → max_h ⟨1, 1, [[], [⟨0, 1⟩]]⟩ (grid_pt k)
          < max_h ⟨1, 1, [[], [⟨0, 1⟩]]⟩ (grid_pt j))) ∧
    (((⟨1, 1, [[], [⟨0, 1⟩]]⟩ : Instance).n = 0 ∨ (⟨1, 1, [[], [⟨0, 1⟩]]⟩ : Instance).m = 0) →
      find_optimal ⟨1, 1, [[], [⟨0, 1⟩]]⟩ = 0)) :=
  ⟨by decide, C1_find_optimal_first_grid_minimiser 1 [(0, 1, 1)] _ (by decide)⟩

/-- C2 (the code at the failing inputs). The constructor leaves the data members
as passed: `frac_t(2, 4)` stores `(2, 4)`, whose gcd is 2, and `frac_t(-1, -2)`
stores `(-1, -2)`, whose denominator is negative; the reduced and sign-normalised
pair `(1, 2)` is computed in the parameters only.  The same holds of every call:
the stored pair is the pair passed. -/
theorem C2_ctor_leaves_members_unreduced :
    frac_t.ctor 2 4 = some ⟨2, 4⟩ ∧ Int.gcd 2 4 = 2 ∧
    frac_t.ctor (-1) (-2) = some ⟨-1, -2⟩ ∧ ¬ ((0 : Int) < -2) ∧
    ctor_frame 2 4 = ⟨2, 4, 1, 2⟩ ∧ ctor_frame (-1) (-2) = ⟨-1, -2, 1, 2⟩ ∧
    (∀ a b : Int, frac_t.init a b = ⟨a, b⟩) :=
  ⟨by decide, by decide, by decide, by decide, by decide, by decide, init_eq⟩

/-- C3. `PEPM` computes `a = max (n1 + 2 n2)`, `b = max n1`, `c = max (2 n1 + n2)`,
`d = max n2`, each maximum taken with 0, and returns 1 if `b = 0`, otherwise 0 if
`d = 0`, otherwise `(a/b - 1) / (a/b + c/d - 2)`. -/
theorem C3_PEPM_bounds_and_probability (V : List (Nat × Nat)) :
    PEPM_bounds V = (max_over (fun v => v.1 + v.2 * 2) V, max_over (fun v => v.1) V,
                     max_over (fun v => v.1 * 2 + v.2) V, max_over (fun v => v.2) V) ∧
    PEPM_bounds [] = (0, 0, 0, 0) ∧
    PEPM_prob V =
      if max_over (fun v => v.1) V = 0 then 1
      else if max_over (fun v => v.2) V = 0 then 0
      else ((max_over (fun v => v.1 + v.2 * 2) V : ℚ) / (max_over (fun v => v.1) V : ℚ) - 1) /
           ((max_over (fun v => v.1 + v.2 * 2) V : ℚ) / (max_over (fun v => v.1) V : ℚ)
             + (max_over (fun v => v.1 * 2 + v.2) V : ℚ) / (max_over (fun v => v.2) V : ℚ) - 2) := by
  refine ⟨PEPM_bounds_eq V, rfl, ?_⟩
  unfold PEPM_prob
  rw [PEPM_bounds_eq]

/-- C4 (counterexample). With the single split `(0, 1)` every near-0 count is 0
and `PEPM` yields 1, not 0; with the single split `(1, 0)` every near-1 count is
0 and `PEPM` yields 0, not 1. -/
theorem C4_counterexample :
    ¬ (∀ V : List (Nat × Nat),
        ((∀ v ∈ V, v.1 = 0) → PEPM_prob V = 0) ∧ ((∀ v ∈ V, v.2 = 0) → PEPM_prob V = 1)) := by
  intro hall
  have h1 := (hall [(0, 1)]).1 (by simp)
  simp [PEPM_prob, PEPM_bounds] at h1

/-- C4 (amended). If every near-0 count is 0 then `PEPM` yields 1; if every
near-1 count is 0 and some near-0 count is positive then `PEPM` yields 0. -/
theorem C4_PEPM_degenerate_branches (V : List (Nat × Nat)) :
    ((∀ v ∈ V, v.1 = 0) → PEPM_prob V = 1) ∧
    ((∀ v ∈ V, v.2 = 0) → (∃ v ∈ V, v.1 ≠ 0) → PEPM_prob V = 0) := by
  have hb := max_over_eq_zero (fun v => v.1) V
  have hd := max_over_eq_zero (fun v => v.2) V
  constructor
  · intro h1
    unfold PEPM_prob
    rw [PEPM_bounds_eq]
    simp [hb.2 h1]
  · intro h2 h1
    have hb0 : max_over (fun v => v.1) V ≠ 0 := by
      intro h0
      obtain ⟨v, hv, hne⟩ := h1
      exact hne (hb.1 h0 v hv)
    unfold PEPM_prob
    rw [PEPM_bounds_eq]
    simp [hb0, hd.2 h2]

/-- Witness of the amended C4 on the splits `[(0, 1)]` and `[(1, 0)]`. -/
theorem C4_PEPM_degenerate_branches_witness :
    PEPM_prob [(0, 1)] = 1 ∧ PEPM_prob [(1, 0)] = 0 :=
  ⟨(C4_PEPM_degenerate_branches [(0, 1)]).1 (by simp),
   (C4_PEPM_degenerate_branches [(1, 0)]).2 (by simp) (by simp)⟩

/-- C5 (counterexample). After the input `n = 1, m = 1`, record `(0, 1, 1)`, and
with `p = 1e-10`, `opt` is 0 and the expected cost is exactly `1e-10`, which is
not greater than `1e-10`; the report is INF, not 1. -/
theorem C5_counterexample :
    read_input 1 [(0, 1, 1)] = some inst_zero ∧
    opt inst_zero ≤ eps ∧ exp_cost inst_zero eps ≤ eps ∧ ¬ (exp_cost inst_zero eps > eps) ∧
    approx_ratio inst_zero eps = Report.inf ∧ approx_ratio inst_zero eps ≠ Report.one := by
  have hopt : opt inst_zero = 0 := opt_inst_zero
  have hexp : exp_cost inst_zero eps = eps := by
    unfold exp_cost
    rw [max_h_inst_zero, max_h_inst_zero]
    norm_num
  have hrep : approx_ratio inst_zero eps = Report.inf := by
    unfold approx_ratio
    rw [hopt, hexp]
    norm_num [eps]
  refine ⟨read_inst_zero, ?_, ?_, ?_, hrep, ?_⟩
  · rw [hopt]; norm_num [eps]
  · rw [hexp]
  · rw [hexp]; exact lt_irrefl _
  · rw [hrep]; decide

/-- C5 (amended). `approx_ratio` reports INF exactly when `opt <= 1e-10` and
`expectedCost >= 1e-10`, the value 1 exactly when `opt <= 1e-10` and
`expectedCost < 1e-10`, and `expectedCost / opt` in every other case. -/
theorem C5_approx_ratio_branches (I : Instance) (p : ℚ) :
    (approx_ratio I p = Report.inf ↔ opt I ≤ eps ∧ eps ≤ exp_cost I p) ∧
    (approx_ratio I p = Report.one ↔ opt I ≤ eps ∧ exp_cost I p < eps) ∧
    (¬ (opt I ≤ eps) → approx_ratio I p = Report.ratio (exp_cost I p / opt I)) := by
  unfold approx_ratio
  by_cases h1 : opt I ≤ eps
  · by_cases h2 : eps ≤ exp_cost I p
    · have h3 : ¬ (exp_cost I p < eps) := not_lt.2 h2
      simp [h1, h2, h3]
    · have h3 : exp_cost I p < eps := not_le.1 h2
      simp [h1, h2, h3, le_of_lt h3]
  · simp [h1]

/-- Witness of the amended C5 on the input `n = 2, m = 1`, records `(0, 1, 1)`,
`(1, 1, 1)`, with `p = 1/2`: `opt` is 1, above `1e-10`. -/
theorem C5_approx_ratio_branches_witness :
    ¬ (opt inst_ends ≤ eps) ∧
    approx_ratio inst_ends (1 / 2) = Report.ratio (exp_cost inst_ends (1 / 2) / opt inst_ends) :=
  ⟨by rw [opt_inst_ends]; norm_num [eps],
   (C5_approx_ratio_branches inst_ends (1 / 2)).2.2 (by rw [opt_inst_ends]; norm_num [eps])⟩

/-- C6. With `M1` the largest near-0 count and `M2` the largest near-1 count,
`LGRV` returns 0 if `M1 > M2` and 1 if `M2 > M1`; when `M1 = M2 > 0` it returns
0 if the first group with `n1 = M1` comes no later than the first group with
`n2 = M1`, and 1 otherwise; when all counts are 0 it returns 0.  A group whose
counts do not exceed the running maximum changes nothing, and two groups
`(3, 3)` yield 0. -/
theorem C6_LGRV_names_largest_column (V : List (Nat × Nat)) :
    (max_over (fun v => v.2) V < max_over (fun v => v.1) V → LGRV_prob V = 0) ∧
    (max_over (fun v => v.1) V < max_over (fun v => v.2) V → LGRV_prob V = 1) ∧
    (max_over (fun v => v.1) V = max_over (fun v => v.2) V → 0 < max_over (fun v => v.1) V →
      (V.findIdx (fun v => decide (v.1 = max_over (fun v => v.1) V))
          ≤ V.findIdx (fun v => decide (v.2 = max_over (fun v => v.1) V)) → LGRV_prob V = 0) ∧
      (V.findIdx (fun v => decide (v.2 = max_over (fun v => v.1) V))
          < V.findIdx (fun v => decide (v.1 = max_over (fun v => v.1) V)) → LGRV_prob V = 1)) ∧
    (max_over (fun v => v.1) V = 0 → max_over (fun v => v.2) V = 0 → LGRV_prob V = 0) ∧
    (∀ (c : Nat) (p : ℚ) (v : Nat × Nat), v.1 ≤ c → v.2 ≤ c → LGRV_step (c, p) v = (c, p)) ∧
    LGRV_prob [(3, 3), (3, 3)] = 0 := by
  refine ⟨?_, ?_, ?_, ?_, ?_, ?_⟩
  · intro hlt
    have e : max (max_over (fun v => v.1) V) (max_over (fun v => v.2) V)
        = max_over (fun v => v.1) V := by omega
    rw [LGRV_prob_eq, e, if_neg (by omega)]
    have h2 : V.findIdx (fun v => decide (v.2 = max_over (fun v => v.1) V)) = V.length := by
      apply List.findIdx_eq_length_of_false
      intro v hv
      have := le_max_over (fun v => v.2) V v hv
      simp only [decide_eq_false_iff_not]
      dsimp only at this
      omega
    rw [h2, if_pos (List.findIdx_le_length _)]
  · intro hlt
    have e : max (max_over (fun v => v.1) V) (max_over (fun v => v.2) V)
        = max_over (fun v => v.2) V := by omega
    rw [LGRV_prob_eq, e, if_neg (by omega)]
    have h1 : V.findIdx (fun v => decide (v.1 = max_over (fun v => v.2) V)) = V.length := by
      apply List.findIdx_eq_length_of_false
      intro v hv
      have := le_max_over (fun v => v.1) V v hv
      simp only [decide_eq_false_iff_not]
      dsimp only at this
      omega
    have h2 : V.findIdx (fun v => decide (v.2 = max_over (fun v => v.2) V)) < V.length := by
      apply List.findIdx_lt_length_of_exists
      obtain ⟨v, hv, he⟩ := max_over_attained (fun v => v.2) V (by omega)
      exact ⟨v, hv, by simpa using he⟩
    rw [h1, if_neg (by omega)]
  · intro heq hpos
    have e : max (max_over (fun v => v.1) V) (max_over (fun v => v.2) V)
        = max_over (fun v => v.1) V := by omega
    rw [LGRV_prob_eq, e, if_neg (by omega)]
    constructor
    · intro hle; rw [if_pos hle]
    · intro hlt; rw [if_neg (by omega)]
  · intro h1 h2
    rw [LGRV_prob_eq, if_pos (by omega)]
  · intro c p v h1 h2
    simp [LGRV_step, Nat.not_lt.2 h1, Nat.not_lt.2 h2]
  · simp [LGRV_prob, LGRV_step]

/-- Witness of C6, one input for each case. -/
theorem C6_LGRV_names_largest_column_witness :
    LGRV_prob [(2, 1)] = 0 ∧ LGRV_prob [(1, 2)] = 1 ∧
    LGRV_prob [(2, 1), (1, 2)] = 0 ∧ LGRV_prob [(1, 2), (2, 1)] = 1 ∧
    LGRV_prob [(0, 0)] = 0 ∧ LGRV_step (3, 0) (3, 3) = (3, 0) :=
  ⟨(C6_LGRV_names_largest_column [(2, 1)]).1 (by decide),
   (C6_LGRV_names_largest_column [(1, 2)]).2.1 (by decide),
   ((C6_LGRV_names_largest_column [(2, 1), (1, 2)]).2.2.1 (by decide) (by decide)).1 (by decide),
   ((C6_LGRV_names_largest_column [(1, 2), (2, 1)]).2.2.1 (by decide) (by decide)).2 (by decide),
   (C6_LGRV_names_largest_column [(0, 0)]).2.2.2.1 (by decide) (by decide),
   (C6_LGRV_names_largest_column []).2.2.2.2.1 3 0 (3, 3) (by decide) (by decide)⟩

/-- C7. For every group `i + 1` (`i < m`) whose records `(a, b, g)` all have
`b > 0`, the split that `PEPM` and `LGRV` compute for the group is: `n1` the
number of its records with `a / b < 1/2`, `n2` the number with `a / b >= 1/2`,
and `n1 + n2` is the group size; an agent stored as 1/2, 2/4 or 50/100 is
counted in `n2`. -/
theorem C7_split_counts_below_and_from_half (m : Nat) (recs : List (Int × Int × Int))
    (I : Instance) (hI : read_input m recs = some I) (i : Nat) (hi : i < m)
    (hpos : ∀ r ∈ recs, r.2.2 = ((i + 1 : Nat) : Int) → 0 < r.2.1) :
    (splits I)[i]? = some
      ((recs.filter (fun r => decide (r.2.2 = ((i + 1 : Nat) : Int)))).countP
          (fun r => decide ((r.1 : ℚ) / (r.2.1 : ℚ) < 1 / 2)),
       (recs.filter (fun r => decide (r.2.2 = ((i + 1 : Nat) : Int)))).countP
          (fun r => decide (1 / 2 ≤ (r.1 : ℚ) / (r.2.1 : ℚ)))) ∧
    (split (I.G.getD (i + 1) [])).1 + (split (I.G.getD (i + 1) [])).2
      = (I.G.getD (i + 1) []).length ∧
    (I.G.getD (i + 1) []).length
      = (recs.filter (fun r => decide (r.2.2 = ((i + 1 : Nat) : Int)))).length ∧
    (PEPM I).1 = PEPM_prob (splits I) ∧ (LGRV I).1 = LGRV_prob (splits I) ∧
    split [frac_t.init 1 2] = (0, 1) ∧ split [frac_t.init 2 4] = (0, 1) ∧
    split [frac_t.init 50 100] = (0, 1) := by
  obtain ⟨_, hm, hG⟩ := read_input_spec m recs I hI
  have hgrp := hG (i + 1) (by omega)
  have hsplit : split (I.G.getD (i + 1) []) =
      ((recs.filter (fun r => decide (r.2.2 = ((i + 1 : Nat) : Int)))).countP
          (fun r => decide ((r.1 : ℚ) / (r.2.1 : ℚ) < 1 / 2)),
       (recs.filter (fun r => decide (r.2.2 = ((i + 1 : Nat) : Int)))).countP
          (fun r => decide (1 / 2 ≤ (r.1 : ℚ) / (r.2.1 : ℚ)))) := by
    rw [hgrp, split_perm _ _ (std_sort_perm _), split_eq_countP, List.countP_map,
      List.countP_map]
    congr 1
    · apply List.countP_congr
      intro r hr
      obtain ⟨hr1, hr2⟩ := List.mem_filter.1 hr
      have hb := hpos r hr1 (by simpa using hr2)
      simp only [Function.comp_apply, decide_eq_true_eq]
      exact lt_half_iff r.1 r.2.1 hb
    · apply List.countP_congr
      intro r hr
      obtain ⟨hr1, hr2⟩ := List.mem_filter.1 hr
      have hb := hpos r hr1 (by simpa using hr2)
      have := lt_half_iff r.1 r.2.1 hb
      simp only [Function.comp_apply, decide_eq_true_eq, Bool.not_eq_true', ← not_lt]
      rw [← this]
      simp
  refine ⟨?_, ?_, ?_, rfl, rfl, by decide, by decide, by decide⟩
  · rw [splits_getElem? I i (by omega), hsplit]
  · rw [split_eq_countP]
    have := List.length_eq_countP_add_countP (fun f => frac_t.lt f (frac_t.init 1 2))
      (I.G.getD (i + 1) [])
    simp only [Bool.not_eq_true, Bool.decide_eq_false] at this
    omega
  · rw [hgrp, (std_sort_perm _).length_eq, List.length_map]

/-- Witness of C7 on the input `n = 3, m = 1`, records `(1, 4, 1)`, `(2, 4, 1)`,
`(50, 100, 1)`: one agent below 1/2, two at 1/2. -/
theorem C7_split_counts_below_and_from_half_witness :
    read_input 1 [(1, 4, 1), (2, 4, 1), (50, 100, 1)]
      = some ⟨3, 1, [[], [⟨1, 4⟩, ⟨50, 100⟩, ⟨2, 4⟩]]⟩ ∧
    (splits ⟨3, 1, [[], [⟨1, 4⟩, ⟨50, 100⟩, ⟨2, 4⟩]]⟩)[0]? = some
      (([(1, 4, 1), (2, 4, 1), (50, 100, 1)].filter
          (fun r : Int × Int × Int => decide (r.2.2 = ((0 + 1 : Nat) : Int)))).countP
          (fun r => decide ((r.1 : ℚ) / (r.2.1 : ℚ) < 1 / 2)),
       ([(1, 4, 1), (2, 4, 1), (50, 100, 1)].filter
          (fun r : Int × Int × Int => decide (r.2.2 = ((0 + 1 : Nat) : Int)))).countP
          (fun r => decide (1 / 2 ≤ (r.1 : ℚ) / (r.2.1 : ℚ)))) ∧
    splits ⟨3, 1, [[], [⟨1, 4⟩, ⟨50, 100⟩, ⟨2, 4⟩]]⟩ = [(1, 2)] :=
  ⟨by decide,
   (C7_split_counts_below_and_from_half 1 [(1, 4, 1), (2, 4, 1), (50, 100, 1)] _
      (by decide) 0 (by decide) (by decide)).1,
   by decide⟩

/-- C8 (counterexample). After the input `n = 1, m = 1`, record `(0, 1, 1)`, at
the location `x = 3` the only group cost is `1 - |0 - 3| = -2`, so the maximum
over the groups is -2, while `max_h(3)` is 0. -/
theorem C8_counterexample :
    read_input 1 [(0, 1, 1)] = some inst_zero ∧
    h inst_zero 1 3 = -2 ∧ max_group_cost inst_zero 3 = -2 ∧ max_h inst_zero 3 = 0 ∧
    max_h inst_zero 3 ≠ max_group_cost inst_zero 3 := by
  have h1 : h inst_zero 1 3 = -2 := by
    norm_num [h, inst_zero, frac_t.value, abs_of_pos]
  have h2 : max_group_cost inst_zero 3 = -2 := by
    simp only [max_group_cost, inst_zero, List.range'_one, List.map_cons, List.map_nil,
      List.foldl_nil]
    exact h1
  have h3 : max_h inst_zero 3 = 0 := by
    rw [max_h_inst_zero]
    norm_num [abs_of_pos]
  refine ⟨read_inst_zero, h1, h2, h3, ?_⟩
  rw [h2, h3]
  norm_num

/-- C8 (amended). For every instance and every location `x`, `max_h(x)` is the
larger of 0 and the maximum over `g` in `1..m` of the unclamped sum `h(g, x)`;
and `max_h(x) = 0` when `m = 0`. -/
theorem C8_max_h_is_max_with_zero (I : Instance) (x : ℚ) :
    max_h I x = max 0 (max_group_cost I x) ∧
    (∀ g, h I g x = ((I.G.getD g []).map (fun f => 1 - |f.value - x|)).sum) ∧
    max_h { I with m := 0 } x = 0 := by
  refine ⟨max_h_eq_max_zero I x, ?_, by simp [max_h]⟩
  intro g
  unfold h
  generalize I.G.getD g [] = l
  have hgen : ∀ s : ℚ, l.foldl (fun ans f => ans + (1 - |f.value - x|)) s
      = s + (l.map (fun f => 1 - |f.value - x|)).sum := by
    induction l with
    | nil => intro s; simp
    | cons f l ih => intro s; simp [ih, add_assoc]
  simpa using hgen 0

/-- C9 (counterexample). After the input `n = 1, m = 1`, record `(1, 2, 1)`,
`find_optimal` returns 0, which is not within a grid step of 0.5, and `max_h`
there is 1/2, not 1. -/
theorem C9_counterexample :
    read_input 1 [(1, 2, 1)] = some inst_half ∧
    ¬ (|find_optimal inst_half - 1 / 2| ≤ 1 / 100000) ∧
    max_h inst_half (find_optimal inst_half) ≠ 1 := by
  refine ⟨read_inst_half, ?_, ?_⟩
  · rw [find_optimal_inst_half]
    norm_num [abs_of_pos]
  · rw [find_optimal_inst_half, max_h_inst_half]
    norm_num [abs_of_pos]

/-- C9 (amended). For the instance with `n = 1`, `m = 1` and a single agent at
1/2 in group 1, `find_optimal` returns `x* = 0` and `max_h(x*) = 1/2`. -/
theorem C9_find_optimal_single_half :
    read_input 1 [(1, 2, 1)] = some inst_half ∧
    find_optimal inst_half = 0 ∧ max_h inst_half (find_optimal inst_half) = 1 / 2 := by
  refine ⟨read_inst_half, find_optimal_inst_half, ?_⟩
  rw [find_optimal_inst_half, max_h_inst_half]
  norm_num [abs_of_pos]

/-- C10. For the input `n = 2, m = 1`, records `(0, 1, 1)` and `(1, 1, 1)`:
group 1 splits to `(1, 1)`; `PEPM` computes `a = 3, b = 1, c = 3, d = 1` and
`p = 1/2`; `max_h(0) = max_h(1) = 1`, the expected cost is 1, and `approx_ratio`
reports the ratio 1. -/
theorem C10_end_to_end_PEPM :
    read_input 1 [(0, 1, 1), (1, 1, 1)] = some inst_ends ∧
    splits inst_ends = [(1, 1)] ∧
    PEPM_bounds (splits inst_ends) = (3, 1, 3, 1) ∧
    PEPM_prob (splits inst_ends) = 1 / 2 ∧
    max_h inst_ends 0 = 1 ∧ max_h inst_ends 1 = 1 ∧
    exp_cost inst_ends (PEPM_prob (splits inst_ends)) = 1 ∧
    PEPM inst_ends = (1 / 2, Report.ratio 1) := by
  have hs : splits inst_ends = [(1, 1)] := by decide
  have hb : PEPM_bounds [(1, 1)] = (3, 1, 3, 1) := by decide
  have hp : PEPM_prob [(1, 1)] = 1 / 2 := by
    unfold PEPM_prob
    rw [hb]
    norm_num
  have h0 : max_h inst_ends 0 = 1 := max_h_inst_ends_unit 0 (le_refl _) (by norm_num)
  have h1 : max_h inst_ends 1 = 1 := max_h_inst_ends_unit 1 (by norm_num) (le_refl _)
  have he : exp_cost inst_ends (1 / 2) = 1 := by
    unfold exp_cost
    rw [h0, h1]
    norm_num
  have hr : approx_ratio inst_ends (1 / 2) = Report.ratio 1 := by
    unfold approx_ratio
    rw [opt_inst_ends, he]
    norm_num [eps]
  refine ⟨read_inst_ends, hs, ?_, ?_, h0, h1, ?_, ?_⟩
  · rw [hs, hb]
  · rw [hs, hp]
  · rw [hs, hp, he]
  · unfold PEPM
    rw [hs, hp, hr]

/-- C11 (counterexample). After the input `n = 2, m = 1`, records `(0, 1, 1)`
and `(1, 1, 1)`, `find_optimal` returns 0, not 0.5. -/
theorem C11_counterexample :
    read_input 1 [(0, 1, 1), (1, 1, 1)] = some inst_ends ∧
    ¬ (find_optimal inst_ends = 1 / 2 ∧ max_h inst_ends (find_optimal inst_ends) = 1) := by
  refine ⟨read_inst_ends, ?_⟩
  rw [find_optimal_inst_ends]
  norm_num

/-- C11 (amended). For the input `n = 2, m = 1`, records `(0, 1, 1)` and
`(1, 1, 1)`, `find_optimal` returns `x* = 0` and the cost `max_h(x*)` is 1. -/
theorem C11_find_optimal_two_ends :
    read_input 1 [(0, 1, 1), (1, 1, 1)] = some inst_ends ∧
    find_optimal inst_ends = 0 ∧ max_h inst_ends (find_optimal inst_ends) = 1 := by
  refine ⟨read_inst_ends, find_optimal_inst_ends, ?_⟩
  rw [find_optimal_inst_ends]
  exact max_h_inst_ends_unit 0 (le_refl _) (by norm_num)

/-- C12. For all fractions `p` and `q`, whatever their stored fields, exactly one
of `p < q`, `q < p`, `p == q` holds, with the products taken over the integers
and also with the products wrapped modulo `2^32`. -/
theorem C12_order_and_equality_trichotomy (p q : frac_t) :
    ExactlyOne (frac_t.lt p q = true) (frac_t.lt q p = true) (frac_t.eq p q = true) ∧
    ExactlyOne (frac_t.lt32 p q = true) (frac_t.lt32 q p = true) (frac_t.eq32 p q = true) := by
  constructor
  · simp only [frac_t.lt, frac_t.eq, decide_eq_true_eq]
    rw [mul_comm q.a p.b, mul_comm q.b p.a]
    exact exactlyOne_of_order _ _
  · simp only [frac_t.lt32, frac_t.eq32, decide_eq_true_eq]
    rw [mul_comm q.a p.b, mul_comm q.b p.a]
    exact exactlyOne_of_order _ _

/-- C13 (the code at the failing input). `frac_t(-1, -2)` keeps the negative
denominator, so against `frac_t(0, 1)` the cross-multiplication `-1 * 1 < -2 * 0`
holds although `1/2 < 0` does not, and `frac_t(-1, -1)`, the position 1, compares
below `frac_t(1, 2)`. -/
theorem C13_lt_with_negative_denominator :
    frac_t.ctor (-1) (-2) = some ⟨-1, -2⟩ ∧ frac_t.ctor 0 1 = some ⟨0, 1⟩ ∧
    frac_t.lt ⟨-1, -2⟩ ⟨0, 1⟩ = true ∧ ¬ (((-1 : Int) : ℚ) / ((-2 : Int) : ℚ) < ((0 : Int) : ℚ) / ((1 : Int) : ℚ)) ∧
    frac_t.ctor (-1) (-1) = some ⟨-1, -1⟩ ∧ frac_t.ctor 1 2 = some ⟨1, 2⟩ ∧
    frac_t.lt ⟨-1, -1⟩ ⟨1, 2⟩ = true ∧ ¬ (((-1 : Int) : ℚ) / ((-1 : Int) : ℚ) < ((1 : Int) : ℚ) / ((2 : Int) : ℚ)) := by
  refine ⟨by decide, by decide, by decide, by norm_num, by decide, by decide, by decide,
    by norm_num⟩

/-- C14 (the code at the failing input). With `m = 1` the record `(-3, -2, 1)`
passes both assertions, since `-3 <= -2` and `-2 != 0`, and is stored in group 1,
although its position `(-3) / (-2) = 3/2` is greater than 1. -/
theorem C14_accepts_position_above_one :
    read_input 1 [(-3, -2, 1)] = some ⟨1, 1, [[], [⟨-3, -2⟩]]⟩ ∧
    (1 : ℚ) < ((-3 : Int) : ℚ) / ((-2 : Int) : ℚ) ∧
    (⟨-3, -2⟩ : frac_t).value = 3 / 2 := by
  refine ⟨by decide, by norm_num, by norm_num [frac_t.value]⟩

/-- C15 (counterexample). For the splits `[(0, 11), (3, 0)]`, which the input with
eleven agents at 1 in group 1 and three agents at 0 in group 2 produces, the
bounds are `a = 22, b = 3, c = 11, d = 11`; the exact value of the formula is 1,
and in `double` `22/3 + 1` is rounded before 2 is subtracted, so the divisor
falls below the dividend and `p = 1 + 2^-52`, greater than 1. -/
theorem C15_counterexample :
    read_input 2 recs_eleven_three = some inst_eleven_three ∧
    splits inst_eleven_three = [(0, 11), (3, 0)] ∧
    PEPM_bounds [(0, 11), (3, 0)] = (22, 3, 11, 11) ∧
    PEPM_prob_d [(0, 11), (3, 0)] = 1 + 1 / 4503599627370496 ∧
    ¬ (PEPM_prob_d [(0, 11), (3, 0)] ≤ 1) := by
  refine ⟨by decide, by decide, by decide, by decide!, by decide!⟩

/-- C15 (amended). For every list of splits the probability of `PEPM` is well
defined and non-negative: in the general branch (`b > 0` and `d > 0`) the
divisors `b`, `d` and `a/b + c/d - 2` are nonzero, the last one positive, also
as computed in `double` (there it is at least 1), and `p >= 0` in `double`; the
exact rational value of the formula lies in `[0, 1]`. -/
theorem C15_PEPM_probability_well_defined (V : List (Nat × Nat)) :
    0 ≤ PEPM_prob_d V ∧ (0 ≤ PEPM_prob V ∧ PEPM_prob V ≤ 1) ∧
    ((PEPM_bounds V).2.1 ≠ 0 → (PEPM_bounds V).2.2.2 ≠ 0 →
      ((PEPM_bounds V).2.1 : ℚ) ≠ 0 ∧ ((PEPM_bounds V).2.2.2 : ℚ) ≠ 0 ∧
      0 < ((PEPM_bounds V).1 : ℚ) / ((PEPM_bounds V).2.1 : ℚ)
            + ((PEPM_bounds V).2.2.1 : ℚ) / ((PEPM_bounds V).2.2.2 : ℚ) - 2 ∧
      1 ≤ fl (fl (fl (((PEPM_bounds V).1 : ℚ) / ((PEPM_bounds V).2.1 : ℚ))
                + fl (((PEPM_bounds V).2.2.1 : ℚ) / ((PEPM_bounds V).2.2.2 : ℚ))) - 2) ∧
      PEPM_prob_d V =
        fl (fl (fl (((PEPM_bounds V).1 : ℚ) / ((PEPM_bounds V).2.1 : ℚ)) - 1) /
            fl (fl (fl (((PEPM_bounds V).1 : ℚ) / ((PEPM_bounds V).2.1 : ℚ))
                  + fl (((PEPM_bounds V).2.2.1 : ℚ) / ((PEPM_bounds V).2.2.2 : ℚ))) - 2))) := by
  refine ⟨PEPM_prob_d_nonneg V, PEPM_prob_range V, ?_⟩
  rw [PEPM_bounds_eq]
  intro hb hd
  dsimp only at hb hd ⊢
  refine ⟨by exact_mod_cast hb, by exact_mod_cast hd, (PEPM_general_bounds V hb hd).1,
    (PEPM_general_bounds_d V hb hd).1, PEPM_prob_d_general V hb hd⟩

/-- Witness of the amended C15 on the splits `[(0, 11), (3, 0)]`, where `b = 3`
and `d = 11`. -/
theorem C15_PEPM_probability_well_defined_witness :
    (PEPM_bounds [(0, 11), (3, 0)]).2.1 ≠ 0 ∧ (PEPM_bounds [(0, 11), (3, 0)]).2.2.2 ≠ 0 ∧
    1 ≤ fl (fl (fl (((PEPM_bounds [(0, 11), (3, 0)]).1 : ℚ)
                    / ((PEPM_bounds [(0, 11), (3, 0)]).2.1 : ℚ))
              + fl (((PEPM_bounds [(0, 11), (3, 0)]).2.2.1 : ℚ)
                    / ((PEPM_bounds [(0, 11), (3, 0)]).2.2.2 : ℚ))) - 2) :=
  ⟨by decide, by decide,
   ((C15_PEPM_probability_well_defined [(0, 11), (3, 0)]).2.2 (by decide) (by decide)).2.2.2.1⟩

/-- C16. When the optimal cost and the expected cost are both 0, `approx_ratio`
reports exactly 1, taking neither the INF branch nor the division branch. -/
theorem C16_zero_costs_report_one (I : Instance) (p : ℚ)
    (hopt : opt I = 0) (hexp : exp_cost I p = 0) :
    approx_ratio I p = Report.one ∧ approx_ratio I p ≠ Report.inf ∧
    ∀ r, approx_ratio I p ≠ Report.ratio r := by
  have h : approx_ratio I p = Report.one := by
    unfold approx_ratio
    rw [hopt, hexp]
    norm_num [eps]
  rw [h]
  exact ⟨rfl, by simp, by simp⟩

/-- Witness of C16 on the input `n = 1, m = 1`, record `(0, 1, 1)`, with `p = 0`. -/
theorem C16_zero_costs_report_one_witness :
    opt inst_zero = 0 ∧ exp_cost inst_zero 0 = 0 ∧ approx_ratio inst_zero 0 = Report.one :=
  ⟨opt_inst_zero, exp_cost_inst_zero_zero,
   (C16_zero_costs_report_one inst_zero 0 opt_inst_zero exp_cost_inst_zero_zero).1⟩

/-- C17. Adding a record with group index 0, at any place of the input and with
any position the assertions accept, is accepted and leaves `max_h(x)` unchanged
at every location `x`: only the groups `1..m` are evaluated. -/
theorem C17_group_zero_never_contributes (m : Nat) (recs1 recs2 : List (Int × Int × Int))
    (a b : Int) (I : Instance) (hI : read_input m (recs1 ++ recs2) = some I)
    (hab : a ≤ b) (hb : b ≠ 0) :
    ∃ J, read_input m (recs1 ++ (a, b, 0) :: recs2) = some J ∧ J.n = I.n + 1 ∧
      (∀ x, max_h J x = max_h I x) ∧ ∀ g x, 1 ≤ g → h J g x = h I g x := by
  have hsome : (read_input m (recs1 ++ (a, b, 0) :: recs2)).isSome = true := by
    rw [read_input_isSome]
    have hold := (read_input_isSome m (recs1 ++ recs2)).1 (by rw [hI]; rfl)
    intro r hr
    rcases List.mem_append.1 hr with hr | hr
    · exact hold r (List.mem_append_left _ hr)
    · rcases List.mem_cons.1 hr with rfl | hr
      · exact ⟨hab, hb, le_refl _, Int.ofNat_nonneg m⟩
      · exact hold r (List.mem_append_right _ hr)
  obtain ⟨J, hJ⟩ := Option.isSome_iff_exists.1 hsome
  obtain ⟨hn, hm, hG⟩ := read_input_spec m _ I hI
  obtain ⟨hn1, hm1, hG1⟩ := read_input_spec m _ J hJ
  have hgrp : ∀ k : Nat, 1 ≤ k → J.G.getD k [] = I.G.getD k [] := by
    intro k hk
    rw [hG k hk, hG1 k hk]
    have hk0 : ¬ ((0 : Int) = (k : Int)) := by omega
    simp [List.filter_append, List.filter_cons, hk0]
  refine ⟨J, hJ, ?_, ?_, ?_⟩
  · rw [hn, hn1]
    simp only [List.length_append, List.length_cons]
    omega
  · intro x
    exact max_h_congr J I (by rw [hm, hm1]) hgrp x
  · intro g x hg
    unfold h
    rw [hgrp g hg]

/-- Witness of C17: the record `(1, 2, 0)` put in front of the input `n = 1,
m = 1`, record `(0, 1, 1)`. -/
theorem C17_group_zero_never_contributes_witness :
    read_input 1 ([] ++ [(0, 1, 1)]) = some inst_zero ∧
    ∃ J, read_input 1 ([] ++ (1, 2, 0) :: [(0, 1, 1)]) = some J ∧ J.n = inst_zero.n + 1 ∧
      (∀ x, max_h J x = max_h inst_zero x) ∧ ∀ g x, 1 ≤ g → h J g x = h inst_zero g x :=
  ⟨by decide,
   C17_group_zero_never_contributes 1 [] [(0, 1, 1)] 1 2 inst_zero (by decide) (by decide)
     (by decide)⟩

/-- C19. For every instance read from the input with `m >= 1` whose records all
have their position `a / b` in `[0, 1]`, and every `x` in `[0, 1]`: each group
`g` in `1..m` has `0 <= h(g, x) <= |G_g| <= n`, `max_h(x)` is the maximum over
`g` in `1..m` of `h(g, x)`, and `max_h(x) <= n`. -/
theorem C19_zero_seed_harmless_on_unit_interval (m : Nat) (recs : List (Int × Int × Int))
    (I : Instance) (hI : read_input m recs = some I) (hm : 1 ≤ m)
    (hpos : ∀ r ∈ recs, 0 ≤ (r.1 : ℚ) / (r.2.1 : ℚ) ∧ (r.1 : ℚ) / (r.2.1 : ℚ) ≤ 1)
    (x : ℚ) (hx0 : 0 ≤ x) (hx1 : x ≤ 1) :
    (∀ g, 1 ≤ g → g ≤ m →
      0 ≤ h I g x ∧ h I g x ≤ ((I.G.getD g []).length : ℚ) ∧ (I.G.getD g []).length ≤ I.n) ∧
    max_h I x = max_group_cost I x ∧ max_h I x ≤ (I.n : ℚ) := by
  obtain ⟨_, hIm, hG⟩ := read_input_spec m recs I hI
  have hbd := read_input_bounded m recs I hI
  have hnonneg : ∀ g, 1 ≤ g → 0 ≤ h I g x := by
    intro g hg
    unfold h
    apply foldl_cost_ge
    intro f hf
    rw [hG g hg] at hf
    have hf1 := (std_sort_perm _).mem_iff.1 hf
    obtain ⟨r, hr, rfl⟩ := List.mem_map.1 hf1
    obtain ⟨h0, h1⟩ := hpos r (List.mem_filter.1 hr).1
    simp only [frac_t.value]
    rw [abs_le]
    constructor <;> linarith
  refine ⟨fun g hg _ => ⟨hnonneg g hg, h_le_length I g x, hbd g⟩, ?_, max_h_le_n I hbd x⟩
  rw [max_h_eq_max_zero]
  apply max_eq_right
  exact le_trans (hnonneg 1 (le_refl _)) (max_group_cost_ge_first I x (by omega))

/-- Witness of C19 on the input `n = 2, m = 1`, records `(0, 1, 1)`, `(1, 1, 1)`,
at `x = 1/2`. -/
theorem C19_zero_seed_harmless_on_unit_interval_witness :
    read_input 1 [(0, 1, 1), (1, 1, 1)] = some inst_ends ∧
    max_h inst_ends (1 / 2) = max_group_cost inst_ends (1 / 2) ∧
    max_h inst_ends (1 / 2) ≤ (inst_ends.n : ℚ) :=
  ⟨read_inst_ends,
   (C19_zero_seed_harmless_on_unit_interval 1 [(0, 1, 1), (1, 1, 1)] inst_ends read_inst_ends
      (by decide)
      (by
        intro r hr
        simp only [List.mem_cons, List.mem_singleton, List.not_mem_nil, or_false] at hr
        rcases hr with rfl | rfl <;> norm_num)
      (1 / 2) (by norm_num) (by norm_num)).2⟩

/-- C20 (counterexample). For the splits `[(1, 2)]` the code computes `p = fl(4/5)`
and for the swapped splits `[(2, 1)]` it computes `fl(1/5)`, which is neither
`1 - p` nor the rounded difference the program prints; for `[(0, 11), (3, 0)]`
it computes `p = 1 + 2^-52` and, swapped, 0. -/
theorem C20_counterexample :
    PEPM_prob_d [(1, 2)] = 3602879701896397 / 4503599627370496 ∧
    PEPM_prob_d ([(1, 2)].map Prod.swap) = 3602879701896397 / 18014398509481984 ∧
    PEPM_prob_d ([(1, 2)].map Prod.swap) ≠ 1 - PEPM_prob_d [(1, 2)] ∧
    PEPM_prob_d ([(1, 2)].map Prod.swap) ≠ fl (1 - PEPM_prob_d [(1, 2)]) ∧
    PEPM_prob_d ([(0, 11), (3, 0)].map Prod.swap) = 0 ∧
    PEPM_prob_d ([(0, 11), (3, 0)].map Prod.swap) ≠ 1 - PEPM_prob_d [(0, 11), (3, 0)] := by
  refine ⟨by decide!, by decide!, by decide!, by decide!, by decide!, by decide!⟩

/-- C20 (amended). In exact arithmetic, swapping `n1` and `n2` in every group turns
the probability `p` of `PEPM` into `1 - p` as soon as some count is positive.
In `double` the same holds, exactly, when one of the two columns is all zero
(then `p` is 0 or 1).  On the all-zero input both the original and the swapped
list give `p = 1`. -/
theorem C20_PEPM_mirror (V : List (Nat × Nat)) :
    ((∃ v ∈ V, v.1 ≠ 0 ∨ v.2 ≠ 0) → PEPM_prob (V.map Prod.swap) = 1 - PEPM_prob V) ∧
    ((∃ v ∈ V, v.1 ≠ 0 ∨ v.2 ≠ 0) → ((∀ v ∈ V, v.1 = 0) ∨ (∀ v ∈ V, v.2 = 0)) →
      PEPM_prob_d (V.map Prod.swap) = 1 - PEPM_prob_d V ∧
      PEPM_prob_d (V.map Prod.swap) = fl (1 - PEPM_prob_d V)) ∧
    ((∀ v ∈ V, v.1 = 0 ∧ v.2 = 0) →
      (PEPM_prob V = 1 ∧ PEPM_prob (V.map Prod.swap) = 1) ∧
      (PEPM_prob_d V = 1 ∧ PEPM_prob_d (V.map Prod.swap) = 1)) := by
  have hz1 := max_over_eq_zero (fun v => v.1) V
  have hz2 := max_over_eq_zero (fun v => v.2) V
  refine ⟨(PEPM_mirror_exact V).1, ?_, ?_⟩
  · rintro ⟨v, hv, hne⟩ hz
    apply PEPM_mirror_d_degenerate
    · rcases hne with h | h
      · left; intro h0; exact h (hz1.1 h0 v hv)
      · right; intro h0; exact h (hz2.1 h0 v hv)
    · rcases hz with h | h
      · left; exact hz1.2 h
      · right; exact hz2.2 h
  · intro hall
    exact ⟨(PEPM_mirror_exact V).2 hall,
      PEPM_prob_d_all_zero V (hz1.2 (fun v hv => (hall v hv).1)) (hz2.2 (fun v hv => (hall v hv).2))⟩

/-- Witness of the amended C20 on the splits `[(2, 1)]`, `[(0, 3)]` and `[(0, 0)]`. -/
theorem C20_PEPM_mirror_witness :
    PEPM_prob ([(2, 1)].map Prod.swap) = 1 - PEPM_prob [(2, 1)] ∧
    (PEPM_prob_d ([(0, 3)].map Prod.swap) = 1 - PEPM_prob_d [(0, 3)] ∧
      PEPM_prob_d ([(0, 3)].map Prod.swap) = fl (1 - PEPM_prob_d [(0, 3)])) ∧
    (PEPM_prob_d [(0, 0)] = 1 ∧ PEPM_prob_d ([(0, 0)].map Prod.swap) = 1) :=
  ⟨(C20_PEPM_mirror [(2, 1)]).1 ⟨(2, 1), by simp, by simp⟩,
   (C20_PEPM_mirror [(0, 3)]).2.1 ⟨(0, 3), by simp, by simp⟩ (Or.inl (by simp)),
   ((C20_PEPM_mirror [(0, 0)]).2.2 (by simp)).2⟩

end Mechanisms
